import Mathlib

/-!
Verification of the Parametric Intention Graph (PIG) core of the
cm2-text-to-cad repository, together with its manager, orchestrator,
sandboxed-executor and LLM-response-salvage layers.

The Python sources are shallowly embedded:

* Python `dict` (insertion ordered) becomes an association list, with
  key lookup and replace-or-append assignment.
* Python `set` fields (`dependencies`, `dependents`, `root_nodes`)
  become duplicate-free lists; `set.add` becomes insert-if-absent.
  Only membership and iteration are ever used on them, so list order
  stands in for the (unspecified) set iteration order.
* `uuid.uuid4()` node-id generation becomes a fresh-id counter carried
  by the manager state: the property used is only freshness.
* Python numbers become `Rat` (the numeric literals occurring in the
  claims are exact in both binary floating point and `Rat`).
* Recursive / looping code is given an explicit fuel argument; a
  distinguished `fuelExhausted` outcome marks the model artifact, and
  sufficiency lemmas show it never occurs at the fuel the embedded
  entry points supply.
* Raised exceptions become `Except` errors.
-/

/-- Python runtime values stored in PIG nodes (`value: Any`).
`boolV` is kept separate from `num`, but note that Python treats
`bool` as a subtype of `int`: the `isinstance(value, (int, float))`
tests of the source therefore also accept booleans, which the
predicates below reproduce. -/
inductive PyVal where
  | num (q : ℚ)
  | boolV (b : Bool)
  | strV (s : String)
  | vecV (l : List ℚ)
  | noneV
deriving Repr, DecidableEq

/-- `isinstance(v, (int, float))` — true for `num` and (Python quirk)
for `boolV`, since `bool` subclasses `int`. -/
def PyVal.isIntFloat : PyVal → Bool
  | .num _ => true
  | .boolV _ => true
  | _ => false

/-- `isinstance(v, bool)`. -/
def PyVal.isBool : PyVal → Bool
  | .boolV _ => true
  | _ => false

/-- `isinstance(v, str)`. -/
def PyVal.isStr : PyVal → Bool
  | .strV _ => true
  | _ => false

/-- Numeric magnitude used by the `<`/`>` bound comparisons of
`_validate_parameter_value`; only reached on values passing
`isIntFloat`, where Python compares `True` as `1` and `False` as `0`. -/
def PyVal.asQ : PyVal → ℚ
  | .num q => q
  | .boolV b => if b then 1 else 0
  | _ => 0

/-- `NodeType` enum of `pig_models.py`. -/
inductive NodeType where
  | parameter
  | operation
  | constraint
deriving Repr, DecidableEq

/-- `ParameterType` enum of `pig_models.py`. -/
inductive ParameterType where
  | numeric
  | string
  | boolean
  | vector
  | geometry_ref
deriving Repr, DecidableEq

/-- `PIGNode` (with the `ParameterNode` / `OperationNode` subclass
fields flattened into options, mirroring the `hasattr`/`getattr`
dynamic-field tests of the source). Node ids are the association-list
keys; the `metadata` dict is never consulted by the verified code and
is elided. -/
structure PIGNode where
  name : String
  node_type : NodeType
  value : PyVal
  description : Option String := none
  dependencies : List Nat := []
  dependents : List Nat := []
  parameter_type : Option ParameterType := none
  min_value : Option ℚ := none
  max_value : Option ℚ := none
  units : Option String := none
  operation_type : Option String := none
  cadquery_code : Option String := none
  inputs : List (String × Nat) := []
deriving Repr, DecidableEq

/-- `dict[k]` lookup (first binding wins; insertion keeps keys unique). -/
def dictLookup (d : List (Nat × PIGNode)) (k : Nat) : Option PIGNode :=
  match d with
  | [] => none
  | (k2, v) :: rest => if k2 = k then some v else dictLookup rest k

/-- `dict[k] = v` assignment: replace an existing binding in place,
else append. -/
def dictAssign (d : List (Nat × PIGNode)) (k : Nat) (v : PIGNode) :
    List (Nat × PIGNode) :=
  match d with
  | [] => [(k, v)]
  | (k2, v2) :: rest =>
    if k2 = k then (k2, v) :: rest else (k2, v2) :: dictAssign rest k v

/-- In-place mutation `dict[k].field = ...` of an existing entry. -/
def dictUpdate (d : List (Nat × PIGNode)) (k : Nat) (f : PIGNode → PIGNode) :
    List (Nat × PIGNode) :=
  match d with
  | [] => []
  | (k2, v) :: rest =>
    if k2 = k then (k2, f v) :: rest else (k2, v) :: dictUpdate rest k f

/-- Iteration order of the dict's keys. -/
def dictKeys (d : List (Nat × PIGNode)) : List Nat := d.map (·.1)

/-- `set.add`: insert if absent (sets are modelled as dup-free lists). -/
def setAdd (s : List Nat) (x : Nat) : List Nat :=
  if x ∈ s then s else s ++ [x]

/-- `set.remove` / `set.discard`. -/
def setRemove (s : List Nat) (x : Nat) : List Nat := s.filter (· ≠ x)

deriving instance DecidableEq for Except

/-- Python `str.lower()` (character-wise; the names involved are
ASCII, where `Char.toLower` coincides with Python). Defined on the
character list so that it evaluates inside the kernel. -/
def pyLower (s : String) : String := String.mk (s.data.map Char.toLower)

/-- `ParametricIntentionGraph` of `pig_models.py`. -/
structure ParametricIntentionGraph where
  nodes : List (Nat × PIGNode) := []
  execution_order : List Nat := []
  root_nodes : List Nat := []
deriving Repr, DecidableEq

namespace ParametricIntentionGraph

/-- `add_node` (the id is the one carried by the node object; the
caller—ultimately `uuid4` via the manager's fresh counter—supplies it). -/
def add_node (g : ParametricIntentionGraph) (id : Nat) (node : PIGNode) :
    ParametricIntentionGraph :=
  let g2 := { g with nodes := dictAssign g.nodes id node }
  if node.dependencies = [] then
    { g2 with root_nodes := setAdd g2.root_nodes id }
  else g2

/-- `add_dependency(dependent_id, dependency_id)`: inserts the edge
whenever both endpoints exist — the source performs no cycle check. -/
def add_dependency (g : ParametricIntentionGraph)
    (dependent_id dependency_id : Nat) : ParametricIntentionGraph :=
  if (dictLookup g.nodes dependent_id).isSome ∧
      (dictLookup g.nodes dependency_id).isSome then
    let n1 := dictUpdate g.nodes dependent_id
      (fun n => { n with dependencies := setAdd n.dependencies dependency_id })
    let n2 := dictUpdate n1 dependency_id
      (fun n => { n with dependents := setAdd n.dependents dependent_id })
    let g2 := { g with nodes := n2 }
    -- remove from root nodes if it now has dependencies
    if dependent_id ∈ g2.root_nodes ∧
        (match dictLookup g2.nodes dependent_id with
         | some n => n.dependencies
         | none => []) ≠ [] then
      { g2 with root_nodes := setRemove g2.root_nodes dependent_id }
    else g2
  else g

/-- `find_parameter_by_name`: first node (dict order) whose lowercased
name matches and whose type is `parameter`. -/
def find_parameter_by_name (g : ParametricIntentionGraph) (name : String) :
    Option Nat :=
  go g.nodes
where go : List (Nat × PIGNode) → Option Nat
  | [] => none
  | (id, node) :: rest =>
    if pyLower node.name = pyLower name ∧
        node.node_type = NodeType.parameter
    then some id else go rest

end ParametricIntentionGraph

/-- Failure outcomes of the embedded graph algorithms.
`cycleDetected` is the `ValueError("Dependência circular ...")` of
`get_execution_order`; `nodeNotFound` the `ValueError` of
`update_parameter`; `keyError` a Python `KeyError` on a dangling id;
`fuelExhausted` is the model artifact of the explicit fuel. -/
inductive ExecErr where
  | cycleDetected (id : Nat)
  | nodeNotFound (id : Nat)
  | keyError (id : Nat)
  | paramNotFound (name : String)
  | checkpointNotFound (id : Nat)
  | fuelExhausted
deriving Repr, DecidableEq

namespace ParametricIntentionGraph

/-- The recursive `visit` of `get_execution_order`, processing a work
list `ds` of sibling nodes at the recursion frame whose path to the
root is `temp` (`temp_visited`, top of path at the head).  `order`
doubles as the `visited` set: the source keeps `visited` and `order`
in lock step (elements are added to both together), so one list
represents both.  Fuel decreases on every step; `fuelExhausted` cannot
occur at the fuel `get_execution_order` supplies (proved below). -/
def visit (g : ParametricIntentionGraph) :
    Nat → List Nat → List Nat → List Nat → Except ExecErr (List Nat)
  | _, _, [], order => .ok order
  | 0, _, _ :: _, _ => .error .fuelExhausted
  | fuel + 1, temp, nid :: rest, order =>
    if nid ∈ temp then .error (.cycleDetected nid)
    else if nid ∈ order then visit g fuel temp rest order
    else
      match dictLookup g.nodes nid with
      | none => .error (.keyError nid)
      | some node =>
        match visit g fuel (nid :: temp) node.dependencies order with
        | .error e => .error e
        | .ok o2 => visit g fuel temp rest (o2 ++ [nid])

/-- Fuel supplied by the embedded `get_execution_order`; sufficiency is
proved below. -/
def execFuel (g : ParametricIntentionGraph) : Nat :=
  g.nodes.length + g.nodes.length * (g.nodes.length + 2) + 1

/-- `get_execution_order`: depth-first topological sort over the
`dependencies` relation, visiting every node of the dict in order.
(The source also stores the result into `self.execution_order`; that
cache is recomputed by every consumer and is not modelled.) -/
def get_execution_order (g : ParametricIntentionGraph) :
    Except ExecErr (List Nat) :=
  visit g (execFuel g) [] (dictKeys g.nodes) []

/-- Inner `for dependent in self.nodes[current].dependents` loop of
`update_parameter`: append each dependent not yet in `affected` to both
`affected` and the pending stack. -/
def pushDependents (deps : List Nat) (affected toVisit : List Nat) :
    List Nat × List Nat :=
  match deps with
  | [] => (affected, toVisit)
  | d :: rest =>
    if d ∈ affected then pushDependents rest affected toVisit
    else pushDependents rest (affected ++ [d]) (toVisit ++ [d])

/-- The `while to_visit` worklist of `update_parameter`.  The Python
list is used LIFO (`append`/`pop()`); the model pops from the head,
which is the same stack discipline (and the computed `affected` set is
order independent — only membership is consumed). -/
def collectAffected (g : ParametricIntentionGraph) :
    Nat → List Nat → List Nat → Except ExecErr (List Nat)
  | _, affected, [] => .ok affected
  | 0, _, _ :: _ => .error .fuelExhausted
  | fuel + 1, affected, current :: stack =>
    match dictLookup g.nodes current with
    | none => .error (.keyError current)
    | some node =>
      let p := pushDependents node.dependents affected stack
      collectAffected g fuel p.1 p.2

/-- Fuel supplied to the worklist (sufficiency proved below). -/
def collectFuel (g : ParametricIntentionGraph) : Nat := g.nodes.length + 2

/-- The write `self.nodes[node_id].value = new_value` of
`update_parameter`. -/
def set_node_value (g : ParametricIntentionGraph) (node_id : Nat)
    (new_value : PyVal) : ParametricIntentionGraph :=
  { g with nodes :=
      dictUpdate g.nodes node_id (fun n => { n with value := new_value }) }

/-- `update_parameter(node_id, new_value)`: write the value, collect
the transitive dependents, and return them filtered out of a fresh
topological order. -/
def update_parameter (g : ParametricIntentionGraph) (node_id : Nat)
    (new_value : PyVal) :
    Except ExecErr (ParametricIntentionGraph × List Nat) :=
  match dictLookup g.nodes node_id with
  | none => .error (.nodeNotFound node_id)
  | some _ =>
    let g2 : ParametricIntentionGraph := set_node_value g node_id new_value
    match collectAffected g2 (collectFuel g2) [] [node_id] with
    | .error e => .error e
    | .ok affected =>
      match get_execution_order g2 with
      | .error e => .error e
      | .ok order => .ok (g2, order.filter (· ∈ affected))

end ParametricIntentionGraph

/-! Specification-side notions used to state the graph claims:
single-step and bounded multi-step reachability over the `dependents`
and `dependencies` adjacency, well-formedness of a graph, and bounded
acyclicity.  All are Boolean, hence usable by `decide` at concrete
graphs. -/

/-- One `dependents` step: `b` is listed among `a`'s dependents. -/
def depdStep (g : ParametricIntentionGraph) (a b : Nat) : Bool :=
  match dictLookup g.nodes a with
  | some n => b ∈ n.dependents
  | none => false

/-- One `dependencies` step: `b` is listed among `a`'s dependencies. -/
def depStep (g : ParametricIntentionGraph) (a b : Nat) : Bool :=
  match dictLookup g.nodes a with
  | some n => b ∈ n.dependencies
  | none => false

/-- `b` reachable from `a` in between 1 and `n` `dependents` steps. -/
def depdReach (g : ParametricIntentionGraph) : Nat → Nat → Nat → Bool
  | 0, _, _ => false
  | n + 1, a, b =>
    depdStep g a b || (match dictLookup g.nodes a with
      | some nd => nd.dependents.any (fun c => depdReach g n c b)
      | none => false)

/-- `b` reachable from `a` in between 1 and `n` `dependencies` steps. -/
def depReach (g : ParametricIntentionGraph) : Nat → Nat → Nat → Bool
  | 0, _, _ => false
  | n + 1, a, b =>
    depStep g a b || (match dictLookup g.nodes a with
      | some nd => nd.dependencies.any (fun c => depReach g n c b)
      | none => false)

/-- Transitive reachability along `dependents` (any number ≥ 1 of steps). -/
def ReachD (g : ParametricIntentionGraph) (a b : Nat) : Prop :=
  ∃ n, depdReach g n a b = true

/-- Well-formedness of a PIG, as maintained by `add_node` /
`add_dependency` construction: unique keys, adjacency lists dup-free
and pointing at existing nodes, and `dependencies`/`dependents`
mirroring each other. -/
def wellFormed (g : ParametricIntentionGraph) : Bool :=
  (dictKeys g.nodes).Nodup &&
  g.nodes.all (fun kn =>
    kn.2.dependencies.Nodup && kn.2.dependents.Nodup &&
    kn.2.dependencies.all (fun d => d ∈ dictKeys g.nodes) &&
    kn.2.dependents.all (fun d => d ∈ dictKeys g.nodes) &&
    kn.2.dependencies.all (fun d => depdStep g d kn.1) &&
    kn.2.dependents.all (fun d => depStep g d kn.1))

/-- Bounded-cycle-freeness: no node reaches itself along `dependencies`
within `|nodes|` steps (for a well-formed graph this captures all
cycles, since a shortest cycle has pairwise-distinct nodes). -/
def acyclicB (g : ParametricIntentionGraph) : Bool :=
  (dictKeys g.nodes).all (fun id => !(depReach g g.nodes.length id id))

/-- `a` occurs in `l` strictly before some occurrence of `b`. -/
def Before (l : List Nat) (a b : Nat) : Prop :=
  ∃ l1 l2, l = l1 ++ a :: l2 ∧ b ∈ l2

/-! ### PIG manager (`pig_manager.py`), projected to one session.
`self.graphs[session_id]` becomes the `pig` field, the per-session
`version_history[session_id]` list the `version_history` field, and
the `uuid4()` / timestamp generators a fresh counter `next_id` (only
freshness of the generated identifiers is relied on).  The
`generated_code_cache` and file-system helpers are not consulted by
the verified operations and are elided. -/

/-- `.value` string of the `ParameterType` enum. -/
def paramTypeStr : ParameterType → String
  | .numeric => "numeric"
  | .string => "string"
  | .boolean => "boolean"
  | .vector => "vector"
  | .geometry_ref => "geometry_ref"

/-- The string-to-enum mapping of `_restore_pig_from_checkpoint`
(anything unrecognised — including `geometry_ref` — defaults to
`NUMERIC`). -/
def stringToParamType (s : String) : ParameterType :=
  if s = "boolean" then .boolean
  else if s = "string" then .string
  else if s = "vector" then .vector
  else .numeric

/-- One value of the name-keyed dict built by `_extract_parameters`. -/
structure ParamInfo where
  id : Nat
  value : PyVal
  type : String
  units : Option String
  description : Option String
deriving Repr, DecidableEq

/-- One element of the list built by `_extract_operations`. -/
structure OpInfo where
  id : Nat
  name : String
  type : String
  description : Option String
  inputs : List (String × Nat)
  code : String
deriving Repr, DecidableEq

/-- The parts of a `checkpoint_data` dict that `rollback` consumes
(`checkpoint_id`, `parameters`, `operations`); the redundant
`pig_state` copy and the human-readable timestamp are elided, the
timestamp-derived checkpoint id is drawn from the fresh counter. -/
structure CheckpointData where
  checkpoint_id : Nat
  description : Option String
  parameters : List (String × ParamInfo)
  operations : List OpInfo
deriving Repr, DecidableEq

/-- A version-history entry: either a checkpoint (the only kind
`rollback_to_version` can target) or an entry written by
`_add_version_to_history`, kept as its `type` tag (its `data` payload
is never read back by the verified code). -/
inductive HistoryEntry where
  | checkpoint (data : CheckpointData)
  | logged (action_type : String)
deriving Repr, DecidableEq

/-- `PIGManager`, restricted to a single session. -/
structure PIGManager where
  pig : ParametricIntentionGraph := {}
  version_history : List HistoryEntry := []
  next_id : Nat := 0
deriving Repr, DecidableEq

/-- Lookup in a string-keyed dict (association list). -/
def slookup {α : Type} (d : List (String × α)) (k : String) : Option α :=
  match d with
  | [] => none
  | (k2, v) :: rest => if k2 = k then some v else slookup rest k

/-- `dict[k] = v` on a string-keyed dict. -/
def sassign {α : Type} (d : List (String × α)) (k : String) (v : α) :
    List (String × α) :=
  match d with
  | [] => [(k, v)]
  | (k2, v2) :: rest =>
    if k2 = k then (k2, v) :: rest else (k2, v2) :: sassign rest k v

namespace PIGManager

/-- `_extract_parameters`: name-keyed dict over the parameter nodes,
in node-dict order (a later duplicate name overwrites an earlier one,
as in a Python dict assignment). -/
def extractParametersGo :
    List (Nat × PIGNode) → List (String × ParamInfo) →
      List (String × ParamInfo)
  | [], acc => acc
  | (id, node) :: rest, acc =>
    if node.node_type = NodeType.parameter then
      extractParametersGo rest (sassign acc node.name
        { id := id, value := node.value,
          type := match node.parameter_type with
            | some t => paramTypeStr t
            | none => "unknown",
          units := node.units, description := node.description })
    else extractParametersGo rest acc

/-- `_extract_parameters(pig)`. -/
def extract_parameters (g : ParametricIntentionGraph) :
    List (String × ParamInfo) :=
  extractParametersGo g.nodes []

/-- `_extract_operations(pig)`: the operation nodes in execution
order.  `get_execution_order` is recomputed (and its cycle failure
propagates); ids in the order always name existing nodes, so the
impossible missing-node case is skipped. -/
def extract_operations (g : ParametricIntentionGraph) :
    Except ExecErr (List OpInfo) :=
  match g.get_execution_order with
  | .error e => .error e
  | .ok order => .ok (order.filterMap (fun id =>
      match dictLookup g.nodes id with
      | some node =>
        if node.node_type = NodeType.operation then
          some { id := id, name := node.name,
                 type := node.operation_type.getD "unknown",
                 description := node.description,
                 inputs := node.inputs,
                 code := node.cadquery_code.getD "" }
        else none
      | none => none))

/-- `PIGManager.add_parameter`: builds a fresh `ParameterNode` and
adds it — unconditionally, with no existing-name check — returning the
new node id.  (Source defaults: `param_type=NUMERIC`, the remaining
keyword arguments `None`.) -/
def add_parameter (m : PIGManager) (name : String) (value : PyVal)
    (param_type : ParameterType) (description : Option String)
    (units : Option String) (min_value max_value : Option ℚ) :
    PIGManager × Nat :=
  let id := m.next_id
  let node : PIGNode :=
    { name := name, node_type := .parameter, value := value,
      description := description, parameter_type := some param_type,
      min_value := min_value, max_value := max_value, units := units }
  ({ m with pig := m.pig.add_node id node, next_id := id + 1 }, id)

/-- `PIGManager.add_operation`: adds an `OperationNode` and one
dependency per input whose target id exists in the graph. -/
def add_operation (m : PIGManager) (name : String)
    (operation_type : String) (cadquery_code : String)
    (inputs : List (String × Nat)) (description : Option String) :
    PIGManager × Nat :=
  let id := m.next_id
  let node : PIGNode :=
    { name := name, node_type := .operation, value := .noneV,
      description := description, operation_type := some operation_type,
      cadquery_code := some cadquery_code, inputs := inputs }
  let g1 := m.pig.add_node id node
  let g2 := inputs.foldl
    (fun g kv =>
      if (dictLookup g.nodes kv.2).isSome then g.add_dependency id kv.2
      else g) g1
  ({ m with pig := g2, next_id := id + 1 }, id)

/-- The `isinstance` chain of `_add_parameter_to_pig`.  Note the
Python quirk: `bool` passes the `(int, float)` test first, so a
boolean value is classified `NUMERIC` and the `BOOLEAN` branch is
dead. -/
def infer_parameter_type (value : PyVal) : ParameterType :=
  if value.isIntFloat then .numeric
  else if value.isBool then .boolean
  else if value.isStr then .string
  else match value with
    | .vecV l =>
      if l.length = 2 ∨ l.length = 3 then .vector else .string
    | _ => .string

/-- `_add_parameter_to_pig`: if the (case-insensitive) name already
exists, write the value onto the existing node in place; otherwise
create a fresh `ParameterNode`.  Returns nothing in the source. -/
def add_parameter_to_pig (m : PIGManager) (name : String) (value : PyVal) :
    PIGManager :=
  let param_type := infer_parameter_type value
  match m.pig.find_parameter_by_name name with
  | some existing_id =>
    { m with pig := m.pig.set_node_value existing_id value }
  | none =>
    let node : PIGNode :=
      { name := name, node_type := .parameter, value := value,
        parameter_type := some param_type }
    { m with pig := m.pig.add_node m.next_id node,
             next_id := m.next_id + 1 }

/-- `update_parameter_value`: resolve the name, then delegate to the
graph's `update_parameter` — no type or bound validation happens
here.  Raises `ValueError` (modelled `paramNotFound`) when the name
is unknown. -/
def update_parameter_value (m : PIGManager) (parameter_name : String)
    (new_value : PyVal) : Except ExecErr (PIGManager × List Nat) :=
  match m.pig.find_parameter_by_name parameter_name with
  | none => .error (.paramNotFound parameter_name)
  | some param_id =>
    match m.pig.update_parameter param_id new_value with
    | .error e => .error e
    | .ok (g2, affected) => .ok ({ m with pig := g2 }, affected)

end PIGManager

/-- Reasons `_validate_parameter_value` rejects a value; each maps to
one of the source's error strings ("Parâmetro ... não encontrado",
"Valor deve ser numérico/booleano/string", "Valor deve ser >= min",
"Valor deve ser <= max", and the caught `KeyError`). -/
inductive ValidationError where
  | parameterNotFound (name : String)
  | keyError
  | typeMismatch (expected : ParameterType)
  | outOfBoundsMin (mn : ℚ)
  | outOfBoundsMax (mx : ℚ)
deriving Repr, DecidableEq

/-- The `{"is_valid": ..., "error": ...}` result of
`_validate_parameter_value`. -/
inductive ValidationResult where
  | valid
  | invalid (e : ValidationError)
deriving Repr, DecidableEq

/-- Per-parameter entry of `update_results` in
`enhanced_parameter_update`. -/
inductive UpdateOutcome where
  | success (new_value : PyVal) (affected : List Nat)
  | failed (e : ValidationError)
  | raised (e : ExecErr)
deriving Repr, DecidableEq

namespace PIGManager

/-- `_validate_parameter_value`: type check against the declared
`parameter_type` and, for numerics, the declared `[min,max]` bounds.
A node without `parameter_type` (base `PIGNode`) passes.  The Python
`bool <: int` subtyping makes booleans pass the NUMERIC check. -/
def validate_parameter_value (m : PIGManager) (param_name : String)
    (new_value : PyVal) : ValidationResult :=
  match m.pig.find_parameter_by_name param_name with
  | none => .invalid (.parameterNotFound param_name)
  | some param_id =>
    match dictLookup m.pig.nodes param_id with
    | none => .invalid .keyError
    | some param_node =>
      match param_node.parameter_type with
      | none => .valid
      | some pt =>
        match pt with
        | .numeric =>
          if !new_value.isIntFloat then .invalid (.typeMismatch .numeric)
          else
            match param_node.min_value with
            | some mn =>
              if new_value.asQ < mn then .invalid (.outOfBoundsMin mn)
              else
                match param_node.max_value with
                | some mx =>
                  if mx < new_value.asQ then .invalid (.outOfBoundsMax mx)
                  else .valid
                | none => .valid
            | none =>
              match param_node.max_value with
              | some mx =>
                if mx < new_value.asQ then .invalid (.outOfBoundsMax mx)
                else .valid
              | none => .valid
        | .boolean =>
          if !new_value.isBool then .invalid (.typeMismatch .boolean)
          else .valid
        | .string =>
          if !new_value.isStr then .invalid (.typeMismatch .string)
          else .valid
        | _ => .valid

/-- `_add_version_to_history`: append the tagged entry, then keep only
the last 100 records. -/
def add_version_to_history (m : PIGManager) (action_type : String) :
    PIGManager :=
  let h := m.version_history ++ [HistoryEntry.logged action_type]
  { m with version_history :=
      if h.length > 100 then h.drop (h.length - 100) else h }

/-- `create_version_checkpoint`: serialise the current parameters and
operations into a checkpoint entry and append it to the history —
with no cap enforcement.  The timestamp-derived checkpoint id is drawn
from the fresh counter; `_extract_operations` can propagate the cycle
failure, which the source re-raises. -/
def create_version_checkpoint (m : PIGManager)
    (description : Option String) : Except ExecErr (PIGManager × Nat) :=
  let cpid := m.next_id
  match extract_operations m.pig with
  | .error e => .error e
  | .ok ops =>
    let data : CheckpointData :=
      { checkpoint_id := cpid, description := description,
        parameters := extract_parameters m.pig, operations := ops }
    .ok ({ m with
            version_history :=
              m.version_history ++ [HistoryEntry.checkpoint data],
            next_id := cpid + 1 }, cpid)

/-- The checkpoint-search loop of `rollback_to_version` (first match
in history order). -/
def findCheckpoint : List HistoryEntry → Nat → Option CheckpointData
  | [], _ => none
  | HistoryEntry.checkpoint cp :: rest, cid =>
    if cp.checkpoint_id = cid then some cp else findCheckpoint rest cid
  | HistoryEntry.logged _ :: rest, cid => findCheckpoint rest cid

/-- `_restore_pig_from_checkpoint`: replace the session graph by a
fresh empty one, re-add every checkpointed parameter through
`add_parameter` (dropping units and bounds; the type string is mapped
back through `stringToParamType`) and every checkpointed operation
through `add_operation` (whose inputs still name the old node ids). -/
def restoreParams (m : PIGManager) (ps : List (String × ParamInfo)) :
    PIGManager :=
  ps.foldl
    (fun mm kv =>
      (add_parameter mm kv.1 kv.2.value (stringToParamType kv.2.type)
        kv.2.description none none none).1) m

/-- The operation-restoring fold of `_restore_pig_from_checkpoint`. -/
def restoreOps (m : PIGManager) (ops : List OpInfo) : PIGManager :=
  ops.foldl
    (fun mm op =>
      (add_operation mm op.name op.type op.code op.inputs
        op.description).1) m

def restore_pig_from_checkpoint (m : PIGManager) (cp : CheckpointData) :
    PIGManager :=
  restoreOps (restoreParams { m with pig := {} } cp.parameters)
    cp.operations

/-- `rollback_to_version`: locate the checkpoint, take a backup
checkpoint of the current state, then restore. -/
def rollback_to_version (m : PIGManager) (checkpoint_id : Nat) :
    Except ExecErr PIGManager :=
  match findCheckpoint m.version_history checkpoint_id with
  | none => .error (.checkpointNotFound checkpoint_id)
  | some cp =>
    match create_version_checkpoint m (some "backup") with
    | .error e => .error e
    | .ok (m1, _) => .ok (restore_pig_from_checkpoint m1 cp)

/-- `enhanced_parameter_update`: checkpoint, then per parameter
validate and — only when valid — write through
`update_parameter_value` (whose own failure is caught per parameter);
finally log a `parameter_update` history entry.  The write itself is
the unvalidated `update_parameter_value` above. -/
def enhanced_parameter_update (m : PIGManager)
    (updates : List (String × PyVal)) :
    Except ExecErr (PIGManager × List (String × UpdateOutcome)) :=
  match create_version_checkpoint m none with
  | .error e => .error e
  | .ok (m1, _) =>
    let step := fun (acc : PIGManager × List (String × UpdateOutcome))
        (kv : String × PyVal) =>
      match validate_parameter_value acc.1 kv.1 kv.2 with
      | .invalid e => (acc.1, acc.2 ++ [(kv.1, UpdateOutcome.failed e)])
      | .valid =>
        match update_parameter_value acc.1 kv.1 kv.2 with
        | .error e => (acc.1, acc.2 ++ [(kv.1, UpdateOutcome.raised e)])
        | .ok (m2, affected) =>
          (m2, acc.2 ++ [(kv.1, UpdateOutcome.success kv.2 affected)])
    let r := updates.foldl step (m1, [])
    .ok (add_version_to_history r.1 "parameter_update", r.2)

end PIGManager

/-- All node ids are below the fresh counter — the invariant the
manager maintains (ids are only ever drawn from the counter). -/
def keysBelow (m : PIGManager) : Prop :=
  ∀ k ∈ dictKeys m.pig.nodes, k < m.next_id

instance (m : PIGManager) : Decidable (keysBelow m) := by
  unfold keysBelow; infer_instance

/-- The (name, info) pairs `_extract_parameters` produces when no two
parameter nodes share a name (plain append instead of dict overwrite). -/
def paramPairs : List (Nat × PIGNode) → List (String × ParamInfo)
  | [] => []
  | (id, node) :: rest =>
    if node.node_type = NodeType.parameter then
      (node.name,
        { id := id, value := node.value,
          type := match node.parameter_type with
            | some t => paramTypeStr t
            | none => "unknown",
          units := node.units,
          description := node.description }) :: paramPairs rest
    else paramPairs rest

/-! ### Specification-side snapshot notions for the checkpoint /
rollback round-trip claim. -/

/-- All dependency edges of a graph, as (dependent, dependency) pairs. -/
def edgeList : List (Nat × PIGNode) → List (Nat × Nat)
  | [] => []
  | (id, n) :: rest => n.dependencies.map (fun d => (id, d)) ++ edgeList rest

/-- The observable state the round-trip claim compares: parameters,
operations and dependency edges. -/
structure PIGSnapshot where
  parameters : List (String × ParamInfo)
  operations : List OpInfo
  edges : List (Nat × Nat)
deriving Repr, DecidableEq

/-- Snapshot of a graph (fails only if the graph is cyclic). -/
def pigSnapshot (g : ParametricIntentionGraph) : Except ExecErr PIGSnapshot :=
  match PIGManager.extract_operations g with
  | .error e => .error e
  | .ok ops => .ok ⟨PIGManager.extract_parameters g, ops, edgeList g.nodes⟩

/-- The round-trip stated by the spec, as a runnable check: create a
checkpoint, roll back to it, and compare the snapshot of the restored
graph with the snapshot of the graph at checkpoint time
(`snapshot(restore(s)) == s`).  Degenerate failures (no checkpoint
found, cyclic graph) count as vacuously passing. -/
def checkpointRollbackRoundTrips (m : PIGManager) : Bool :=
  match PIGManager.create_version_checkpoint m none with
  | .error _ => true
  | .ok (m1, cpid) =>
    match PIGManager.rollback_to_version m1 cpid with
    | .error _ => true
    | .ok m2 =>
      match pigSnapshot m2.pig, pigSnapshot m.pig with
      | .ok s2, .ok s1 => s2 = s1
      | _, _ => true

/-- The node `add_parameter` constructs during a restore (proof-side
description of `restore_pig_from_checkpoint`). -/
def mkRestoredParamNode (nm : String) (info : ParamInfo) : PIGNode :=
  { name := nm, node_type := .parameter, value := info.value,
    description := info.description,
    parameter_type := some (stringToParamType info.type) }

/-- The node `add_operation` constructs during a restore. -/
def mkRestoredOpNode (op : OpInfo) : PIGNode :=
  { name := op.name, node_type := .operation, value := .noneV,
    description := op.description, operation_type := some op.type,
    cadquery_code := some op.code, inputs := op.inputs }

/-- The parameter segment a restore appends, keyed by consecutive
fresh ids starting at `base`. -/
def buildParams : Nat → List (String × ParamInfo) → List (Nat × PIGNode)
  | _, [] => []
  | base, (nm, info) :: rest =>
    (base, mkRestoredParamNode nm info) :: buildParams (base + 1) rest

/-- The operation segment a restore appends. -/
def buildOps : Nat → List OpInfo → List (Nat × PIGNode)
  | _, [] => []
  | base, op :: rest => (base, mkRestoredOpNode op) :: buildOps (base + 1) rest

/-- Number of parameter nodes carrying a given (case-insensitive)
name — the uniqueness measure of the C3 claim. -/
def countParamsNamed (g : ParametricIntentionGraph) (name : String) : Nat :=
  (g.nodes.filter (fun kn =>
    pyLower kn.2.name = pyLower name ∧
      kn.2.node_type = NodeType.parameter)).length

/-- Value currently stored on node `id`. -/
def storedValue (m : PIGManager) (id : Nat) : Option PyVal :=
  (dictLookup m.pig.nodes id).map PIGNode.value

/-- Stored value of node `id` after `update_parameter_value`;
`none` when the update raised. -/
def valueAfterUpdate (m : PIGManager) (name : String) (v : PyVal)
    (id : Nat) : Option PyVal :=
  match PIGManager.update_parameter_value m name v with
  | .ok (m2, _) => storedValue m2 id
  | .error _ => none

/-- The parameter node of `exMgr` (id 0), spelled out. -/
def exParamNode : PIGNode :=
  { name := "cylinder_height", node_type := .parameter, value := .num 20,
    dependents := [1], parameter_type := some .numeric,
    min_value := some 0, max_value := some 100, units := some "mm" }

/-- Manager component of an `enhanced_parameter_update` run (keeps
the input manager when the run fails). -/
def enhancedManager (m : PIGManager) (ups : List (String × PyVal)) :
    PIGManager :=
  match PIGManager.enhanced_parameter_update m ups with
  | .ok (x, _) => x
  | .error _ => m

/-- Outcome list of an `enhanced_parameter_update` run. -/
def enhancedOutcomes (m : PIGManager) (ups : List (String × PyVal)) :
    List (String × UpdateOutcome) :=
  match PIGManager.enhanced_parameter_update m ups with
  | .ok (_, o) => o
  | .error _ => []

/-- Manager component of an `update_parameter_value` run. -/
def upvManager (m : PIGManager) (n : String) (v : PyVal) : PIGManager :=
  match PIGManager.update_parameter_value m n v with
  | .ok (x, _) => x
  | .error _ => m

/-- Affected list of an `update_parameter_value` run. -/
def upvAffected (m : PIGManager) (n : String) (v : PyVal) : List Nat :=
  match PIGManager.update_parameter_value m n v with
  | .ok (_, a) => a
  | .error _ => []

/-- Run one checkpoint, keeping the manager (errors keep it
unchanged; they cannot occur on the acyclic graphs used below). -/
def iterCheckpoint (m : PIGManager) : PIGManager :=
  match PIGManager.create_version_checkpoint m none with
  | .ok (m2, _) => m2
  | .error _ => m

/-- A manager holding one bounded parameter (id 0, `[0, 100]` mm) and
one operation (id 1) depending on it — the concrete session used by
the manager-level witnesses and counterexamples. -/
def exMgr : PIGManager :=
  let m0 : PIGManager := {}
  let m1 := (PIGManager.add_parameter m0 "cylinder_height" (.num 20)
    .numeric none (some "mm") (some 0) (some 100)).1
  (PIGManager.add_operation m1 "cyl" "cylinder"
    "result = make_cylinder(h)" [("height", 0)] none).1

/-! ### Concrete graphs used by witnesses and counterexamples: a small
cylinder model (two parameters feeding one operation), and the
two-node graph made cyclic by two `add_dependency` calls. -/


def exampleP1 : PIGNode :=
  { name := "cylinder_height", node_type := .parameter, value := .num 20,
    dependents := [3], parameter_type := some .numeric }

def exampleP2 : PIGNode :=
  { name := "cylinder_radius", node_type := .parameter, value := .num 10,
    dependents := [3], parameter_type := some .numeric }

def exampleOp : PIGNode :=
  { name := "cylinder_op", node_type := .operation, value := .noneV,
    dependencies := [1, 2], operation_type := some "cylinder",
    cadquery_code := some "result = make_cylinder(h, r)" }

def exampleGraph : ParametricIntentionGraph :=
  { nodes := [(1, exampleP1), (2, exampleP2), (3, exampleOp)],
    root_nodes := [1, 2] }

def cycleGraph : ParametricIntentionGraph :=
  let g0 : ParametricIntentionGraph := {}
  let g1 := g0.add_node 1
    { name := "a", node_type := .parameter, value := .num 1,
      parameter_type := some .numeric }
  let g2 := g1.add_node 2
    { name := "b", node_type := .parameter, value := .num 2,
      parameter_type := some .numeric }
  (g2.add_dependency 1 2).add_dependency 2 1

/-- The checkpointed record of the one parameter of `exMgr` (its units
are recorded; its bounds are not part of the checkpoint format). -/
def exCpParam : ParamInfo :=
  { id := 0, value := .num 20, type := "numeric", units := some "mm",
    description := none }

/-- The single checkpointed operation of `exCp`; its input still names
the old node id 0. -/
def exCpOp : OpInfo :=
  { id := 1, name := "cyl", type := "cylinder", description := none,
    inputs := [("height", 0)], code := "result = make_cylinder(h)" }

/-- A concrete checkpoint of `exMgr` — one bounded parameter feeding
one operation — used by the C5 witness. -/
def exCp : CheckpointData :=
  { checkpoint_id := 2, description := none,
    parameters := [("cylinder_height", exCpParam)],
    operations := [exCpOp] }

/-! ### The sandboxed executor's result path (`executor.py`).  The
subprocess itself is outside the model; `ProcOutcome` is the oracle for
how `await asyncio.wait_for(process.communicate(), timeout=...)` ends:
either it returns the captured stdout/stderr within the limit, or it
raises `asyncio.TimeoutError`.  Everything after that point is
translated literally. -/

/-- How the awaited subprocess communication ends. -/
inductive ProcOutcome where
  | completed (stdout stderr : String)
  | timedOut
deriving Repr, DecidableEq

/-- Substring search on character lists (helper of `pyContains`). -/
def containsAux (n : List Char) : List Char → Bool
  | [] => n.isEmpty
  | c :: rest => n.isPrefixOf (c :: rest) || containsAux n rest

/-- Python `needle in haystack` on strings. -/
def pyContains (needle hay : String) : Bool :=
  containsAux needle.data hay.data

/-- The dict `_execute_in_process` returns (the fields the caller
reads; the success branch also carries `model_info`/`output`, which the
status claim does not touch). -/
structure ProcDict where
  status : String
  error_message : Option String := none
  error_traceback : Option String := none
deriving Repr, DecidableEq

/-- `ExecutionResult` as `execute_plan` fills it (the fields relevant
to the status claim; `execution_models.py` declares the status set as
"success", "error", "timeout"). -/
structure ExecutionResult where
  status : String
  error_message : Option String := none
  error_traceback : Option String := none
deriving Repr, DecidableEq

/-- `_execute_in_process` from the awaited outcome on: the first
component records whether `process.kill()` ran (only the
`asyncio.TimeoutError` branch calls it).  On timeout the returned dict
says status "error" — not "timeout" — with the time-limit message and
a "TimeoutError" traceback; a completed run is "success" exactly when
the marker `EXECUTION_SUCCESS` appears in stdout (Python's
`error or "Erro desconhecido na execução"` takes the fallback on the
empty string). -/
def execute_in_process (t : Nat) (outcome : ProcOutcome) :
    Bool × ProcDict :=
  match outcome with
  | .completed out err =>
    if pyContains "EXECUTION_SUCCESS" out then
      (false, { status := "success" })
    else
      (false, { status := "error",
                error_message :=
                  some (if err = "" then "Erro desconhecido na execução"
                    else err),
                error_traceback := some (out ++ "\n" ++ err) })
  | .timedOut =>
    (true, { status := "error",
             error_message :=
               some ("Execução excedeu tempo limite de " ++ toString t
                 ++ "s"),
             error_traceback := some "TimeoutError" })

/-- `execute_plan`, step 3: a result dict whose status is "success"
becomes a success `ExecutionResult`; anything else becomes status
"error" carrying the dict's message and traceback. -/
def execute_plan (t : Nat) (outcome : ProcOutcome) :
    Bool × ExecutionResult :=
  let kd := execute_in_process t outcome
  if kd.2.status = "success" then
    (kd.1, { status := "success" })
  else
    (kd.1, { status := "error", error_message := kd.2.error_message,
             error_traceback := kd.2.error_traceback })

/-! ### The auto-correction retry loop
(`orchestrator._execute_plan_with_retry`).  The executor and the
planner are outside the model: `execO i p` is the oracle for what
`await self.executor.execute_plan(...)` does on loop iteration `i`
with current plan `p` (returns a result, or raises), and
`corrO i p res` for whether the planner's correction query returns a
plan with a truthy `execution_plan`.  The plan type `P` is opaque.
`for attempt in range(max_retries + 1)` with `max_retries = 2` is the
concrete three-iteration loop, unrolled. -/

/-- How one `execute_plan` call inside the `try` ends. -/
inductive ExecAttempt where
  | ok (r : ExecutionResult)
  | raised (msg : String)

/-- What `_execute_plan_with_retry` returns: an executor result, the
`{"status": "error", ...}` dict built at a final-attempt exception, or
the implicit None of a completed `for` loop (proved unreachable). -/
inductive RetryResult (P : Type) where
  | res (r : ExecutionResult)
  | errDict (msg : String)
  | fellThrough

def max_retries : Nat := 2

/-- One iteration of the loop body: `Sum.inl` is a `return`,
`Sum.inr p2` means the loop continues with plan `p2` (a corrected
plan, or the same plan after a swallowed exception). -/
def retryStep {P : Type} (execO : Nat → P → ExecAttempt)
    (corrO : Nat → P → ExecutionResult → Option P)
    (attempt : Nat) (plan : P) : Sum (RetryResult P) P :=
  match execO attempt plan with
  | .raised msg =>
    if attempt = max_retries then .inl (.errDict msg) else .inr plan
  | .ok result =>
    if result.status = "success" then .inl (.res result)
    else if attempt < max_retries then
      match corrO attempt plan result with
      | some p2 => .inr p2
      | none => .inl (.res result)
    else .inl (.res result)

/-- `_execute_plan_with_retry` with its executor-call count: the loop
over `attempt = 0, 1, 2`. -/
def execute_plan_with_retry {P : Type} (execO : Nat → P → ExecAttempt)
    (corrO : Nat → P → ExecutionResult → Option P) (plan : P) :
    RetryResult P × Nat :=
  match retryStep execO corrO 0 plan with
  | .inl r => (r, 1)
  | .inr p1 =>
    match retryStep execO corrO 1 p1 with
    | .inl r => (r, 2)
    | .inr p2 =>
      match retryStep execO corrO 2 p2 with
      | .inl r => (r, 3)
      | .inr _ => (.fellThrough, 3)

/-- The surfaced value against the final executor run: it is exactly
that run's outcome — the result object itself, or the error dict of
its exception — and a non-success result is only surfaced with the
retries exhausted or the planner producing no corrected plan (an
exception is only surfaced with the retries exhausted). -/
def lastRunMatches {P : Type} (execO : Nat → P → ExecAttempt)
    (corrO : Nat → P → ExecutionResult → Option P)
    (a : Nat) (p : P) (r : RetryResult P) : Prop :=
  match execO a p with
  | .ok res =>
    r = .res res ∧
      (res.status ≠ "success" → a = max_retries ∨ corrO a p res = none)
  | .raised msg => r = .errDict msg ∧ a = max_retries

/-! ### The intention classifier (`dialog_manager.py`) and the fast
parameter-update path (`orchestrator.py`).  The classifier's patterns
are literal substrings except `faça.*maior`, `faça.*menor` and
`torne.*mais` (a substring followed, with no intervening newline, by
another — `.` does not match a newline) and `quantos?`, whose optional
final `s` makes it the plain substring `quanto`.  `\s` is
`[ \t\n\r\x0b\x0c]`, `\w` is `[a-zA-Z0-9_]` (the inputs here are
lowercased ASCII). -/

/-- `\s` of Python's `re`, and the characters `str.strip` removes. -/
def isPySpace (c : Char) : Bool :=
  c = ' ' || c = '\t' || c = '\n' || c = '\r' || c = '\x0b' || c = '\x0c'

/-- `\w` of Python's `re` (ASCII range). -/
def isWordChar (c : Char) : Bool :=
  ('a' ≤ c && c ≤ 'z') || ('A' ≤ c && c ≤ 'Z') ||
    ('0' ≤ c && c ≤ '9') || c = '_'

/-- `str.strip()`. -/
def pyStrip (s : String) : String :=
  String.mk (((s.data.dropWhile isPySpace).reverse.dropWhile
    isPySpace).reverse)

/-- Occurrence of `b` after zero or more non-newline characters
(the `.*b` tail of a pattern). -/
def findAfter (b : List Char) : List Char → Bool
  | [] => b.isPrefixOf []
  | c :: rest => b.isPrefixOf (c :: rest) || (c ≠ '\n' && findAfter b rest)

/-- `re.search` of the pattern `a.*b` for literal `a` and `b`. -/
def seqSearch (a b : List Char) : List Char → Bool
  | [] => a.isPrefixOf [] && findAfter b []
  | c :: rest =>
    (a.isPrefixOf (c :: rest) && findAfter b ((c :: rest).drop a.length))
      || seqSearch a b rest

/-- A classifier pattern: a literal substring, or `a.*b`. -/
inductive Pat where
  | lit (s : String)
  | seq (a b : String)
deriving Repr, DecidableEq

def patMatch (p : Pat) (text : String) : Bool :=
  match p with
  | .lit s => pyContains s text
  | .seq a b => seqSearch a.data b.data text.data

/-- `IntentionType` of `dialog_models.py` (the members the classifier
returns). -/
inductive IntentionType where
  | meta_command
  | question
  | modification
  | new_instruction
deriving Repr, DecidableEq

def meta_patterns : List Pat :=
  [.lit "desfaz", .lit "undo", .lit "voltar", .lit "anterior",
   .lit "salvar", .lit "exportar", .lit "limpar", .lit "reset"]

/-- `quantos?` appears as `.lit "quanto"` (its final `s` is
optional). -/
def question_patterns : List Pat :=
  [.lit "qual", .lit "como", .lit "onde", .lit "quando", .lit "por que",
   .lit "quanto", .lit "quanto", .lit "que tamanho", .lit "dimensão"]

def modification_patterns : List Pat :=
  [.lit "aument", .lit "diminu", .lit "reduz", .lit "mude", .lit "alter",
   .lit "modif", .seq "faça" "maior", .seq "faça" "menor",
   .seq "torne" "mais", .lit "configure", .lit "ajuste", .lit "corrija"]

def creation_patterns : List Pat :=
  [.lit "crie", .lit "faça", .lit "adicione", .lit "desenhe",
   .lit "construa", .lit "gere", .lit "caixa", .lit "cilindro",
   .lit "esfera", .lit "furo", .lit "flange"]

/-- `_classify_intention` (its argument is already lowercased and
stripped by `resolve_intention`). -/
def classify_intention (text : String) : IntentionType :=
  if meta_patterns.any (fun p => patMatch p text) then .meta_command
  else if question_patterns.any (fun p => patMatch p text) then .question
  else if modification_patterns.any (fun p => patMatch p text) then
    .modification
  else if creation_patterns.any (fun p => patMatch p text) then
    .new_instruction
  else .new_instruction

/-- `resolve_intention`: lowercase and strip, then classify. -/
def resolve_intention_type (content : String) : IntentionType :=
  classify_intention (pyStrip (pyLower content))

/-! #### The extractor `_extract_parameter_modification`.  Its three
patterns are matched by direct translation: maximal munch is exact
here because `\w`, `\s` and the literals that follow each repeated
class are disjoint, and the two genuine backtracking points — the
optional `(?:o\s+)?` and `(?:de\s+)?` groups — are translated as an
explicit try-then-fallback. -/

/-- Literal prefix: consume `w` or fail. -/
def litM (w : String) (t : List Char) : Option (List Char) :=
  if w.data.isPrefixOf t then some (t.drop w.data.length) else none

/-- One-or-more characters satisfying `p` (maximal munch). -/
def takeWhile1 (p : Char → Bool) (t : List Char) :
    Option (List Char × List Char) :=
  let a := t.takeWhile p
  if a.isEmpty then none else some (a, t.dropWhile p)

def digitsToNat (l : List Char) : Nat :=
  l.foldl (fun acc c => acc * 10 + (c.toNat - Char.toNat '0')) 0

/-- `(\d+(?:\.\d+)?)` followed by Python's `float` on the captured
text. -/
def numM (t : List Char) : Option (ℚ × List Char) :=
  match takeWhile1 Char.isDigit t with
  | none => none
  | some (ds, r1) =>
    match r1 with
    | '.' :: r2 =>
      match takeWhile1 Char.isDigit r2 with
      | some (fs, r3) =>
        some ((digitsToNat ds : ℚ) +
          (digitsToNat fs : ℚ) / ((10 : ℚ) ^ fs.length), r3)
      | none => some ((digitsToNat ds : ℚ), r1)
    | _ => some ((digitsToNat ds : ℚ), r1)

/-- First verb of the alternation matching at this position (the
verbs are mutually prefix-free, so at most one matches). -/
def verbAlt (vs : List String) (t : List Char) : Option (List Char) :=
  match vs with
  | [] => none
  | v :: rest =>
    match litM v t with
    | some r => some r
    | none => verbAlt rest t

/-- Greedy optional `(?:w\s+)?` before the rest of the pattern: try
the group, fall back to skipping it. -/
def withOpt (w : String) (body : List Char → Option (String × ℚ))
    (t : List Char) : Option (String × ℚ) :=
  match (match litM w t with
         | some r1 =>
           match takeWhile1 isPySpace r1 with
           | some (_, r2) => body r2
           | none => none
         | none => none) with
  | some r => some r
  | none => body t

/-- `(\w+)\s+para\s+(\d+(?:\.\d+)?)` — the tail of pattern 1. -/
def p1Tail (t : List Char) : Option (String × ℚ) :=
  match takeWhile1 isWordChar t with
  | none => none
  | some (w, r2) =>
    match takeWhile1 isPySpace r2 with
    | none => none
    | some (_, r3) =>
      match litM "para" r3 with
      | none => none
      | some r4 =>
        match takeWhile1 isPySpace r4 with
        | none => none
        | some (_, r5) => (numM r5).map (fun vr => (String.mk w, vr.1))

/-- `(\w+)\s+(?:de\s+)?(\d+(?:\.\d+)?)` — the tail of pattern 3. -/
def p3Tail (t : List Char) : Option (String × ℚ) :=
  match takeWhile1 isWordChar t with
  | none => none
  | some (w, r2) =>
    match takeWhile1 isPySpace r2 with
    | none => none
    | some (_, r3) =>
      match (match litM "de" r3 with
             | some r4 =>
               match takeWhile1 isPySpace r4 with
               | some (_, r5) => (numM r5).map (fun vr => (String.mk w, vr.1))
               | none => none
             | none => none : Option (String × ℚ)) with
      | some r => some r
      | none => (numM r3).map (fun vr => (String.mk w, vr.1))

/-- Pattern 1 anchored at this position:
`(?:aumente|mude|altere|defina|configure)\s+(?:o\s+)?` then the
tail. -/
def p1At (t : List Char) : Option (String × ℚ) :=
  match verbAlt ["aumente", "mude", "altere", "defina", "configure"] t with
  | none => none
  | some r0 =>
    match takeWhile1 isPySpace r0 with
    | none => none
    | some (_, r1) => withOpt "o" p1Tail r1

/-- Pattern 2 anchored at this position: `(\w+)\s*=\s*(\d+(?:\.\d+)?)`. -/
def p2At (t : List Char) : Option (String × ℚ) :=
  match takeWhile1 isWordChar t with
  | none => none
  | some (w, r1) =>
    match litM "=" (r1.dropWhile isPySpace) with
    | none => none
    | some r3 => (numM (r3.dropWhile isPySpace)).map
        (fun vr => (String.mk w, vr.1))

/-- Pattern 3 anchored at this position: `(?:faça|torne)\s+(?:o\s+)?`
then the tail. -/
def p3At (t : List Char) : Option (String × ℚ) :=
  match verbAlt ["faça", "torne"] t with
  | none => none
  | some r0 =>
    match takeWhile1 isPySpace r0 with
    | none => none
    | some (_, r1) => withOpt "o" p3Tail r1

/-- `re.search`: try the anchored pattern at each position, left to
right. -/
def scanM (pAt : List Char → Option (String × ℚ)) :
    List Char → Option (String × ℚ)
  | [] => pAt []
  | c :: rest =>
    match pAt (c :: rest) with
    | some r => some r
    | none => scanM pAt rest

/-- `_extract_parameter_modification`: the three patterns in order on
the lowercased text (the `float` of a captured number never raises, so
the `except ValueError: continue` is dead). -/
def extract_parameter_modification (text : String) :
    Option (String × ℚ) :=
  let t := (pyLower text).data
  match scanM p1At t with
  | some r => some r
  | none =>
    match scanM p2At t with
    | some r => some r
    | none => scanM p3At t

/-- `_try_parameter_update`, up to the executor call: extract a
(name, value) pair, look the name up in the PIG (a found node id — a
uuid string in the source — is always truthy), update the parameter
(an exception is caught and yields None), and hand the affected nodes
to the executor; only an executor success (`execOk`, the oracle for
`execute_pig_nodes`) produces a response, everything else returns
None.  A `some` result is the fast path; `none` sends the turn to the
LLM. -/
def try_parameter_update (g : ParametricIntentionGraph) (execOk : Bool)
    (user_input : String) : Option (String × ℚ × List Nat) :=
  match extract_parameter_modification user_input with
  | none => none
  | some (nm, v) =>
    match g.find_parameter_by_name nm with
    | none => none
    | some pid =>
      match g.update_parameter pid (.num v) with
      | .error _ => none
      | .ok (_, affected) =>
        if execOk then some (nm, v, affected) else none

/-- Step 4 of `process_user_input`: only a turn classified as
MODIFICATION tries the fast parameter-update path; a `some` result is
returned with no LLM call, and every other turn goes to
`_process_with_llm`. -/
def process_user_input (g : ParametricIntentionGraph) (execOk : Bool)
    (user_input : String) : Option (String × ℚ × List Nat) :=
  if resolve_intention_type user_input = IntentionType.modification then
    try_parameter_update g execOk user_input
  else none

/-! ### The JSON salvage of `planning_module._clean_json_response`.
`jsonValid` is the document grammar `json.loads` accepts (standard
JSON plus Python's default `NaN`, `Infinity` and `-Infinity`
constants; whitespace is space, tab, newline, carriage return), as a
fuel-based recogniser; `json.loads` is used by the source only as a
validity check, so only acceptance is modelled.
`_extract_balanced_json` and the line-by-line strategy are translated
literally.  The three regex candidate extractions of strategy 2 are an
oracle: `cands` holds, per pattern, the longest match if any; every
such candidate starts with a brace and ends with one, because each
pattern's capture group is brace-delimited — `candsBraced` states
exactly that. -/

def isJsonWs (c : Char) : Bool :=
  c = ' ' || c = '\t' || c = '\n' || c = '\r'

def isHexDigit (c : Char) : Bool :=
  Char.isDigit c || ('a' ≤ c && c ≤ 'f') || ('A' ≤ c && c ≤ 'F')

def pstrRest : List Char → Option (List Char)
  | [] => none
  | '"' :: r => some r
  | '\\' :: e :: r =>
    if e = '"' || e = '\\' || e = '/' || e = 'b' || e = 'f' || e = 'n'
        || e = 'r' || e = 't' then pstrRest r
    else if e = 'u' then
      match r with
      | a :: b :: c :: d :: r2 =>
        if isHexDigit a && isHexDigit b && isHexDigit c && isHexDigit d
        then pstrRest r2 else none
      | _ => none
    else none
  | c :: r => if c.toNat < 32 then none else pstrRest r

def pexpTail (t1 : List Char) : List Char :=
  match t1 with
  | c :: r =>
    if c = 'e' || c = 'E' then
      let r2 := match r with
        | s :: r3 => if s = '+' || s = '-' then r3 else r
        | [] => r
      match takeWhile1 Char.isDigit r2 with
      | some (_, r4) => r4
      | none => t1
    else t1
  | [] => t1

def pnumTail (t : List Char) : List Char :=
  let t1 := match t with
    | '.' :: r =>
      match takeWhile1 Char.isDigit r with
      | some (_, r2) => r2
      | none => t
    | _ => t
  pexpTail t1

def pnum (t : List Char) : Option (List Char) :=
  match t with
  | [] => none
  | '0' :: r => some (pnumTail r)
  | c :: _ =>
    if Char.isDigit c then some (pnumTail (t.dropWhile Char.isDigit))
    else none

mutual

def pval : Nat → List Char → Option (List Char)
  | 0, _ => none
  | fuel + 1, t0 =>
    match t0.dropWhile isJsonWs with
    | '\x7b' :: r => pobj fuel r
    | '[' :: r => parr fuel r
    | '"' :: r => pstrRest r
    | 't' :: r => litM "rue" r
    | 'f' :: r => litM "alse" r
    | 'n' :: r => litM "ull" r
    | 'N' :: r => litM "aN" r
    | 'I' :: r => litM "nfinity" r
    | '-' :: 'I' :: r2 => litM "nfinity" r2
    | '-' :: r => pnum r
    | t => pnum t

def pobj : Nat → List Char → Option (List Char)
  | 0, _ => none
  | fuel + 1, t0 =>
    match t0.dropWhile isJsonWs with
    | '\x7d' :: r => some r
    | '"' :: r =>
      match pstrRest r with
      | none => none
      | some r2 =>
        match r2.dropWhile isJsonWs with
        | ':' :: r3 =>
          match pval fuel r3 with
          | none => none
          | some r4 => pmemLoop fuel r4
        | _ => none
    | _ => none

def pmemLoop : Nat → List Char → Option (List Char)
  | 0, _ => none
  | fuel + 1, t0 =>
    match t0.dropWhile isJsonWs with
    | '\x7d' :: r => some r
    | ',' :: r =>
      match r.dropWhile isJsonWs with
      | '"' :: r2 =>
        match pstrRest r2 with
        | none => none
        | some r3 =>
          match r3.dropWhile isJsonWs with
          | ':' :: r4 =>
            match pval fuel r4 with
            | none => none
            | some r5 => pmemLoop fuel r5
          | _ => none
      | _ => none
    | _ => none

def parr : Nat → List Char → Option (List Char)
  | 0, _ => none
  | fuel + 1, t0 =>
    match t0.dropWhile isJsonWs with
    | ']' :: r => some r
    | t =>
      match pval fuel t with
      | none => none
      | some r => pelemLoop fuel r

def pelemLoop : Nat → List Char → Option (List Char)
  | 0, _ => none
  | fuel + 1, t0 =>
    match t0.dropWhile isJsonWs with
    | ']' :: r => some r
    | ',' :: r =>
      match pval fuel r with
      | none => none
      | some r2 => pelemLoop fuel r2
    | _ => none

end

def jsonValid (s : String) : Bool :=
  match pval (s.data.length + 1) s.data with
  | some rest => rest.all isJsonWs
  | none => false


def ebjScan : List Char → Int → List Char → Option (List Char)
  | [], _, _ => none
  | c :: rest, n, acc =>
    let n2 : Int := if c = '\x7b' then n + 1
      else if c = '\x7d' then n - 1 else n
    if c = '\x7d' ∧ n2 = 0 then some ((c :: acc).reverse)
    else ebjScan rest n2 (c :: acc)

def extract_balanced_json (text : String) : String :=
  let s := pyStrip text
  match s.data with
  | '\x7b' :: _ =>
    match ebjScan s.data 0 [] with
    | some l => String.mk l
    | none => ""
  | _ => ""

def splitNlAux : List Char → List Char → List String
  | [], acc => [String.mk acc.reverse]
  | '\n' :: r, acc => String.mk acc.reverse :: splitNlAux r []
  | c :: r, acc => splitNlAux r (c :: acc)

def splitOnNl (s : String) : List String :=
  splitNlAux s.data []

def tryCands : List (Option String) → Option String
  | [] => none
  | none :: rest => tryCands rest
  | some c :: rest =>
    if jsonValid c then some (pyStrip c) else tryCands rest

def tryLines : List String → Option String
  | [] => none
  | l :: rest =>
    if ((pyStrip l).data.head? = some '\x7b') then
      let c := extract_balanced_json
        (String.intercalate "\n" (l :: rest))
      if c ≠ "" ∧ jsonValid c = true then some c else tryLines rest
    else tryLines rest

def fallbackJson : String :=
  "\x7b\"intention_type\": \"error\", \"response_text\": \"Erro: N\\u00e3o foi poss\\u00edvel extrair JSON v\\u00e1lido da resposta do LLM\", \"requires_clarification\": true, \"clarification_questions\": [\"Por favor, reformule sua solicita\\u00e7\\u00e3o de forma mais espec\\u00edfica.\"]\x7d"

def clean_json_response (response_text cleaned : String)
    (cands : List (Option String)) : String :=
  if response_text = "" then "\x7b\x7d"
  else
    match tryCands cands with
    | some s => s
    | none =>
      let c3 := extract_balanced_json cleaned
      if c3 ≠ "" ∧ jsonValid c3 = true then c3
      else
        match tryLines (splitOnNl cleaned) with
        | some s => s
        | none =>
          let cs := pyStrip cleaned
          if cs.data.head? = some '\x7b' ∧ cs.data.getLast? = some '\x7d'
              ∧ jsonValid cleaned = true then cleaned
          else fallbackJson

def parse_llm_decode_error (response_text cleaned : String)
    (cands : List (Option String)) : Bool :=
  !(jsonValid (clean_json_response response_text cleaned cands))

def bracedStr (c : String) : Bool :=
  c.data.head? = some '\x7b' && c.data.getLast? = some '\x7d'


def candsBraced (cands : List (Option String)) : Bool :=
  cands.all (fun oc => match oc with
    | none => true
    | some c => bracedStr c)

/-! ### Notions used by the graph proofs: the topological-order
invariant of `visit`, the dependency chain carried by `temp_visited`,
and the count of keys not yet collected by the worklist. -/

def GoodOrder (g : ParametricIntentionGraph) (o : List Nat) : Prop :=
  o.Nodup ∧ ∀ l1 x l2, o = l1 ++ x :: l2 →
    ∀ n, dictLookup g.nodes x = some n → ∀ d ∈ n.dependencies, d ∈ l1

def TempChain (g : ParametricIntentionGraph) : List Nat → Prop
  | [] => True
  | [_] => True
  | a :: b :: rest => depStep g b a = true ∧ TempChain g (b :: rest)

def HeadOk (g : ParametricIntentionGraph) : List Nat → List Nat → Prop
  | [], _ => True
  | h :: _, ds => ∀ d ∈ ds, depStep g h d = true

def unaffected (g : ParametricIntentionGraph) (affected : List Nat) : Nat :=
  ((dictKeys g.nodes).filter (fun k => k ∉ affected)).length

/-! ### Association-list and list bookkeeping lemmas -/

theorem dictLookup_isSome_iff {d : List (Nat × PIGNode)} {k : Nat} :
    (dictLookup d k).isSome ↔ k ∈ dictKeys d := by
  induction d with
  | nil => simp [dictLookup, dictKeys]
  | cons kv rest ih =>
    obtain ⟨k2, v⟩ := kv
    by_cases h : k2 = k
    · subst h; simp [dictLookup, dictKeys]
    · simp [dictLookup, dictKeys, h, ih, Ne.symm h]

theorem dictLookup_mem_keys {d : List (Nat × PIGNode)} {k : Nat} {n : PIGNode}
    (h : dictLookup d k = some n) : k ∈ dictKeys d := by
  have : (dictLookup d k).isSome := by simp [h]
  exact dictLookup_isSome_iff.mp this

theorem dictLookup_none_of_not_mem {d : List (Nat × PIGNode)} {k : Nat}
    (h : k ∉ dictKeys d) : dictLookup d k = none := by
  cases hd : dictLookup d k with
  | none => rfl
  | some n => exact absurd (dictLookup_mem_keys hd) h

theorem dictKeys_dictUpdate (d : List (Nat × PIGNode)) (k : Nat)
    (f : PIGNode → PIGNode) : dictKeys (dictUpdate d k f) = dictKeys d := by
  induction d with
  | nil => rfl
  | cons kv rest ih =>
    by_cases h : kv.1 = k
    all_goals simp [dictUpdate, dictKeys, h]
    all_goals simpa [dictKeys] using ih

theorem dictLookup_dictUpdate_self (d : List (Nat × PIGNode)) (k : Nat)
    (f : PIGNode → PIGNode) :
    dictLookup (dictUpdate d k f) k = (dictLookup d k).map f := by
  induction d with
  | nil => rfl
  | cons kv rest ih =>
    by_cases h : kv.1 = k <;> simp [dictUpdate, dictLookup, h, ih]

theorem dictLookup_dictUpdate_ne (d : List (Nat × PIGNode)) (k q : Nat)
    (f : PIGNode → PIGNode) (h : q ≠ k) :
    dictLookup (dictUpdate d k f) q = dictLookup d q := by
  induction d with
  | nil => rfl
  | cons kv rest ih =>
    obtain ⟨k2, v⟩ := kv
    by_cases h1 : k2 = k
    · subst h1
      simp [dictUpdate, dictLookup, Ne.symm h]
    · by_cases h2 : k2 = q
      · subst h2; simp [dictUpdate, dictLookup, h1]
      · simp [dictUpdate, dictLookup, h1, h2, ih]

theorem nodup_length_le {l m : List Nat} (hn : l.Nodup) (hs : l ⊆ m) :
    l.length ≤ m.length :=
  (List.subperm_of_subset hn hs).length_le

/-! ### Occurs-before machinery for topological-order statements -/

theorem Before_filter {T : List Nat} {a b : Nat} (p : Nat → Bool)
    (h : Before T a b) (ha : p a = true) (hb : p b = true) :
    Before (T.filter p) a b := by
  obtain ⟨l1, l2, hT, hbmem⟩ := h
  exact ⟨l1.filter p, l2.filter p, by simp [hT, ha],
    List.mem_filter.mpr ⟨hbmem, hb⟩⟩

theorem nodup_split_unique {T x1 x2 y1 y2 : List Nat} {c : Nat}
    (hn : T.Nodup) (h1 : T = x1 ++ c :: x2) (h2 : T = y1 ++ c :: y2) :
    x1 = y1 ∧ x2 = y2 := by
  subst h1
  induction x1 generalizing y1 with
  | nil =>
    cases y1 with
    | nil =>
      simp only [List.nil_append] at h2
      injection h2 with hcc hx
      exact ⟨rfl, hx⟩
    | cons b t =>
      exfalso
      simp only [List.nil_append, List.cons_append] at h2 hn
      injection h2 with hb ht
      rw [List.nodup_cons] at hn
      apply hn.1
      rw [ht]; simp
  | cons a t ih =>
    cases y1 with
    | nil =>
      exfalso
      simp only [List.cons_append, List.nil_append] at h2 hn
      injection h2 with hb ht
      rw [List.nodup_cons] at hn
      apply hn.1
      rw [hb]; simp
    | cons b u =>
      simp only [List.cons_append] at h2 hn
      injection h2 with hb ht
      rw [List.nodup_cons] at hn
      obtain ⟨he1, he2⟩ := ih hn.2 ht
      exact ⟨by rw [hb, he1], he2⟩

theorem Before_trans {T : List Nat} {a b c : Nat} (hn : T.Nodup)
    (h1 : Before T a c) (h2 : Before T c b) : Before T a b := by
  obtain ⟨l1, l2, hT1, hc⟩ := h1
  obtain ⟨m1, m2, hT2, hb⟩ := h2
  obtain ⟨u, v, huv⟩ := List.append_of_mem hc
  have hT1' : T = (l1 ++ a :: u) ++ c :: v := by rw [hT1, huv]; simp
  obtain ⟨he1, he2⟩ := nodup_split_unique hn hT2 hT1'
  refine ⟨l1, u ++ c :: v, by rw [hT1, huv], ?_⟩
  have hb2 : b ∈ v := he2 ▸ hb
  simp [hb2]

theorem Before_of_mem_split {T l1 l2 : List Nat} {a b : Nat}
    (hT : T = l1 ++ b :: l2) (ha : a ∈ l1) : Before T a b := by
  obtain ⟨u, v, huv⟩ := List.append_of_mem ha
  refine ⟨u, v ++ b :: l2, by rw [hT, huv]; simp, by simp⟩

open ParametricIntentionGraph

theorem visit_nil0 (g : ParametricIntentionGraph) (fuel : Nat)
    (temp order : List Nat) : visit g fuel temp [] order = .ok order := by
  cases fuel <;> rfl

theorem visit_cycle {g : ParametricIntentionGraph} {fuel : Nat}
    {temp rest order : List Nat} {nid : Nat} (h1 : nid ∈ temp) :
    visit g (fuel + 1) temp (nid :: rest) order =
      .error (.cycleDetected nid) := by
  simp [visit, h1]

theorem visit_skip {g : ParametricIntentionGraph} {fuel : Nat}
    {temp rest order : List Nat} {nid : Nat} (h1 : nid ∉ temp)
    (h2 : nid ∈ order) :
    visit g (fuel + 1) temp (nid :: rest) order =
      visit g fuel temp rest order := by
  simp [visit, h1, h2]

theorem visit_keyerr {g : ParametricIntentionGraph} {fuel : Nat}
    {temp rest order : List Nat} {nid : Nat} (h1 : nid ∉ temp)
    (h2 : nid ∉ order) (hlk : dictLookup g.nodes nid = none) :
    visit g (fuel + 1) temp (nid :: rest) order = .error (.keyError nid) := by
  simp [visit, h1, h2, hlk]

theorem visit_descend_err {g : ParametricIntentionGraph} {fuel : Nat}
    {temp rest order : List Nat} {nid : Nat} {node : PIGNode} {e : ExecErr}
    (h1 : nid ∉ temp) (h2 : nid ∉ order)
    (hlk : dictLookup g.nodes nid = some node)
    (hin : visit g fuel (nid :: temp) node.dependencies order = .error e) :
    visit g (fuel + 1) temp (nid :: rest) order = .error e := by
  simp [visit, h1, h2, hlk, hin]

theorem visit_descend_ok {g : ParametricIntentionGraph} {fuel : Nat}
    {temp rest order o2 : List Nat} {nid : Nat} {node : PIGNode}
    (h1 : nid ∉ temp) (h2 : nid ∉ order)
    (hlk : dictLookup g.nodes nid = some node)
    (hin : visit g fuel (nid :: temp) node.dependencies order = .ok o2) :
    visit g (fuel + 1) temp (nid :: rest) order =
      visit g fuel temp rest (o2 ++ [nid]) := by
  simp [visit, h1, h2, hlk, hin]

theorem concat_split {o l1 l2 : List Nat} {a x : Nat}
    (h : o ++ [a] = l1 ++ x :: l2) :
    (l1 = o ∧ x = a ∧ l2 = []) ∨ ∃ t, o = l1 ++ x :: t ∧ l2 = t ++ [a] := by
  induction l1 generalizing o with
  | nil =>
    cases o with
    | nil =>
      simp at h
      exact Or.inl ⟨rfl, h.1.symm, h.2⟩
    | cons y o2 =>
      simp at h
      exact Or.inr ⟨o2, by simp [h.1], h.2.symm⟩
  | cons b t ih =>
    cases o with
    | nil =>
      simp at h
    | cons y o2 =>
      simp at h
      obtain ⟨hb, ht⟩ := h
      rcases ih ht with ⟨e1, e2, e3⟩ | ⟨u, hu1, hu2⟩
      · exact Or.inl ⟨by rw [hb, e1], e2, e3⟩
      · exact Or.inr ⟨u, by rw [hb, hu1]; rfl, hu2⟩

theorem GoodOrder_append_single {g : ParametricIntentionGraph}
    {o : List Nat} {nid : Nat} {node : PIGNode}
    (hg : GoodOrder g o) (hnid : nid ∉ o)
    (hlk : dictLookup g.nodes nid = some node)
    (hdeps : ∀ d ∈ node.dependencies, d ∈ o) :
    GoodOrder g (o ++ [nid]) := by
  constructor
  · rw [List.nodup_append]
    refine ⟨hg.1, by simp, ?_⟩
    intro x hx hx2
    simp at hx2
    subst hx2
    exact hnid hx
  · intro l1 x l2 hsplit n hlkx d hd
    rcases concat_split hsplit with ⟨e1, e2, e3⟩ | ⟨t, ht1, ht2⟩
    · subst e2
      rw [hlkx] at hlk
      injection hlk with hlk
      subst e1
      exact hdeps d (hlk ▸ hd)
    · exact hg.2 l1 x t ht1 n hlkx d hd

theorem visit_spec {g : ParametricIntentionGraph} :
    ∀ (fuel : Nat) (temp ds order res : List Nat),
      visit g fuel temp ds order = .ok res →
      (∃ dlt, res = order ++ dlt ∧
        ∀ x ∈ dlt, x ∉ temp ∧ x ∈ dictKeys g.nodes) ∧
      ∀ d ∈ ds, d ∈ res := by
  intro fuel
  induction fuel with
  | zero =>
    intro temp ds order res h
    cases ds with
    | nil =>
      rw [visit_nil0] at h
      injection h with h
      subst h
      exact ⟨⟨[], by simp, by simp⟩, by simp⟩
    | cons d r => exact absurd h (by simp [visit])
  | succ f ih =>
    intro temp ds order res h
    cases ds with
    | nil =>
      rw [visit_nil0] at h
      injection h with h
      subst h
      exact ⟨⟨[], by simp, by simp⟩, by simp⟩
    | cons nid rest =>
      by_cases h1 : nid ∈ temp
      · rw [visit_cycle h1] at h; exact absurd h (by simp)
      by_cases h2 : nid ∈ order
      · rw [visit_skip h1 h2] at h
        obtain ⟨⟨dlt, hres, hdlt⟩, hmem⟩ := ih temp rest order res h
        refine ⟨⟨dlt, hres, hdlt⟩, ?_⟩
        intro d hd
        rcases List.mem_cons.mp hd with rfl | hd
        · rw [hres]; exact List.mem_append_left _ h2
        · exact hmem d hd
      cases hlk : dictLookup g.nodes nid with
      | none => rw [visit_keyerr h1 h2 hlk] at h; exact absurd h (by simp)
      | some node =>
        cases hin : visit g f (nid :: temp) node.dependencies order with
        | error e =>
          rw [visit_descend_err h1 h2 hlk hin] at h
          exact absurd h (by simp)
        | ok o2 =>
          rw [visit_descend_ok h1 h2 hlk hin] at h
          obtain ⟨⟨d1, ho2, hd1⟩, hmem1⟩ :=
            ih (nid :: temp) node.dependencies order o2 hin
          obtain ⟨⟨d2, hres, hd2⟩, hmem2⟩ := ih temp rest (o2 ++ [nid]) res h
          refine ⟨⟨d1 ++ [nid] ++ d2, ?_, ?_⟩, ?_⟩
          · rw [hres, ho2]; simp
          · intro x hx
            simp at hx
            rcases hx with hx | rfl | hx
            · have h3 := hd1 x hx
              exact ⟨fun hc => h3.1 (by simp [hc]), h3.2⟩
            · exact ⟨h1, dictLookup_mem_keys hlk⟩
            · exact hd2 x hx
          · intro d hd
            rcases List.mem_cons.mp hd with rfl | hd
            · rw [hres]; exact List.mem_append_left _ (by simp)
            · exact hmem2 d hd

theorem visit_good {g : ParametricIntentionGraph} :
    ∀ (fuel : Nat) (temp ds order res : List Nat),
      GoodOrder g order → visit g fuel temp ds order = .ok res →
      GoodOrder g res := by
  intro fuel
  induction fuel with
  | zero =>
    intro temp ds order res hG h
    cases ds with
    | nil =>
      rw [visit_nil0] at h
      injection h with h
      subst h
      exact hG
    | cons d r => exact absurd h (by simp [visit])
  | succ f ih =>
    intro temp ds order res hG h
    cases ds with
    | nil =>
      rw [visit_nil0] at h
      injection h with h
      subst h
      exact hG
    | cons nid rest =>
      by_cases h1 : nid ∈ temp
      · rw [visit_cycle h1] at h; exact absurd h (by simp)
      by_cases h2 : nid ∈ order
      · rw [visit_skip h1 h2] at h
        exact ih temp rest order res hG h
      cases hlk : dictLookup g.nodes nid with
      | none => rw [visit_keyerr h1 h2 hlk] at h; exact absurd h (by simp)
      | some node =>
        cases hin : visit g f (nid :: temp) node.dependencies order with
        | error e =>
          rw [visit_descend_err h1 h2 hlk hin] at h
          exact absurd h (by simp)
        | ok o2 =>
          rw [visit_descend_ok h1 h2 hlk hin] at h
          have hGo2 := ih (nid :: temp) node.dependencies order o2 hG hin
          obtain ⟨⟨d1, ho2, hd1⟩, hmem1⟩ :=
            visit_spec f (nid :: temp) node.dependencies order o2 hin
          have hnid : nid ∉ o2 := by
            rw [ho2]
            intro hmem
            rcases List.mem_append.mp hmem with hc | hc
            · exact h2 hc
            · exact (hd1 nid hc).1 (by simp)
          exact ih temp rest (o2 ++ [nid]) res
            (GoodOrder_append_single hGo2 hnid hlk
              (fun d hd => hmem1 d hd)) h

theorem depReach_mono {g : ParametricIntentionGraph} :
    ∀ {n m a b}, n ≤ m → depReach g n a b = true → depReach g m a b = true := by
  intro n
  induction n with
  | zero => intro m a b _ h; simp [depReach] at h
  | succ k ih =>
    intro m a b hnm h
    cases m with
    | zero => omega
    | succ m2 =>
      rw [depReach] at h ⊢
      rcases Bool.or_eq_true_iff.mp h with h | h
      · exact Bool.or_eq_true_iff.mpr (Or.inl h)
      · refine Bool.or_eq_true_iff.mpr (Or.inr ?_)
        cases hlk : dictLookup g.nodes a with
        | none => rw [hlk] at h; simp at h
        | some nd =>
          rw [hlk] at h
          simp only [List.any_eq_true] at h ⊢
          obtain ⟨c, hc, hr⟩ := h
          exact ⟨c, hc, ih (by omega) hr⟩

theorem depStep_reach1 {g : ParametricIntentionGraph} {a b : Nat}
    (h : depStep g a b = true) : depReach g 1 a b = true := by
  rw [depReach]
  exact Bool.or_eq_true_iff.mpr (Or.inl h)

theorem depReach_snoc {g : ParametricIntentionGraph} :
    ∀ {n a b c}, depReach g n a b = true → depStep g b c = true →
      depReach g (n + 1) a c = true := by
  intro n
  induction n with
  | zero => intro a b c h _; simp [depReach] at h
  | succ k ih =>
    intro a b c h hbc
    rw [depReach] at h
    rw [depReach]
    rcases Bool.or_eq_true_iff.mp h with h | h
    · -- one step a → b, then b → c
      refine Bool.or_eq_true_iff.mpr (Or.inr ?_)
      have hlk : ∃ nd, dictLookup g.nodes a = some nd ∧ b ∈ nd.dependencies := by
        rw [depStep] at h
        cases hl : dictLookup g.nodes a with
        | none => rw [hl] at h; simp at h
        | some nd => rw [hl] at h; exact ⟨nd, rfl, by simpa using h⟩
      obtain ⟨nd, hl, hb⟩ := hlk
      rw [hl]
      simp only [List.any_eq_true]
      exact ⟨b, hb, depReach_mono (by omega) (depStep_reach1 hbc)⟩
    · refine Bool.or_eq_true_iff.mpr (Or.inr ?_)
      cases hl : dictLookup g.nodes a with
      | none => rw [hl] at h; simp at h
      | some nd =>
        rw [hl] at h
        simp only [List.any_eq_true] at h ⊢
        obtain ⟨c2, hc2, hr⟩ := h
        exact ⟨c2, hc2, ih hr hbc⟩

theorem tempchain_reach_head {g : ParametricIntentionGraph} :
    ∀ (tl : List Nat) (h0 : Nat), TempChain g (h0 :: tl) → ∀ nid ∈ h0 :: tl,
      nid = h0 ∨ depReach g tl.length nid h0 = true := by
  intro tl
  induction tl with
  | nil =>
    intro h0 _ nid hm
    simp at hm
    exact Or.inl hm
  | cons b rest ih =>
    intro h0 hchain nid hm
    obtain ⟨hstep, hchain2⟩ := hchain
    rcases List.mem_cons.mp hm with rfl | hm2
    · exact Or.inl rfl
    · rcases ih b hchain2 nid hm2 with rfl | hr
      · exact Or.inr (depReach_mono (by simp) (depStep_reach1 hstep))
      · exact Or.inr (by
          have := depReach_snoc hr hstep
          simpa using this)

theorem tempchain_cycle {g : ParametricIntentionGraph} {temp : List Nat}
    {h0 : Nat} {tl : List Nat} {nid : Nat}
    (hchain : TempChain g temp) (htemp : temp = h0 :: tl)
    (hmem : nid ∈ temp) (hstep : depStep g h0 nid = true) :
    depReach g temp.length nid nid = true := by
  subst htemp
  rcases tempchain_reach_head tl h0 hchain nid hmem with rfl | hr
  · exact depReach_mono (by simp) (depStep_reach1 hstep)
  · have h2 := depReach_snoc hr hstep
    simpa using h2

theorem dictLookup_mem {d : List (Nat × PIGNode)} {k : Nat} {n : PIGNode}
    (h : dictLookup d k = some n) : (k, n) ∈ d := by
  induction d with
  | nil => simp [dictLookup] at h
  | cons kv rest ih =>
    obtain ⟨k2, v⟩ := kv
    by_cases hk : k2 = k
    · subst hk
      rw [dictLookup, if_pos rfl] at h
      injection h with h
      subst h
      simp
    · rw [dictLookup, if_neg hk] at h
      exact List.mem_cons_of_mem _ (ih h)

theorem dictKeys_length (d : List (Nat × PIGNode)) :
    (dictKeys d).length = d.length := by
  simp [dictKeys]

theorem wf_keys_nodup {g : ParametricIntentionGraph}
    (h : wellFormed g = true) : (dictKeys g.nodes).Nodup := by
  rw [wellFormed, Bool.and_eq_true] at h
  exact of_decide_eq_true h.1

theorem wf_node {g : ParametricIntentionGraph} {k : Nat} {n : PIGNode}
    (h : wellFormed g = true) (hlk : dictLookup g.nodes k = some n) :
    n.dependencies.Nodup ∧ n.dependents.Nodup ∧
    (∀ d ∈ n.dependencies, d ∈ dictKeys g.nodes) ∧
    (∀ d ∈ n.dependents, d ∈ dictKeys g.nodes) ∧
    (∀ d ∈ n.dependencies, depdStep g d k = true) ∧
    (∀ d ∈ n.dependents, depStep g d k = true) := by
  rw [wellFormed, Bool.and_eq_true, List.all_eq_true] at h
  have h2 := h.2 (k, n) (dictLookup_mem hlk)
  simp only [Bool.and_eq_true, List.all_eq_true, decide_eq_true_eq] at h2
  exact ⟨h2.1.1.1.1.1, h2.1.1.1.1.2, h2.1.1.1.2, h2.1.1.2, h2.1.2, h2.2⟩

theorem acyclic_no_self {g : ParametricIntentionGraph} {k : Nat}
    (h : acyclicB g = true) (hk : k ∈ dictKeys g.nodes) :
    depReach g g.nodes.length k k = false := by
  rw [acyclicB, List.all_eq_true] at h
  have := h k hk
  simp at this
  exact this

theorem visit_ok {g : ParametricIntentionGraph} (hWF : wellFormed g = true)
    (hAc : acyclicB g = true) :
    ∀ (fuel : Nat) (temp ds order : List Nat),
      temp.Nodup → (∀ x ∈ temp, x ∈ dictKeys g.nodes) →
      (∀ d ∈ ds, d ∈ dictKeys g.nodes) →
      TempChain g temp → HeadOk g temp ds →
      fuel ≥ ds.length +
        (g.nodes.length - temp.length) * (g.nodes.length + 2) + 1 →
      ∃ res, visit g fuel temp ds order = .ok res := by
  intro fuel
  induction fuel with
  | zero =>
    intro temp ds order _ _ _ _ _ hf
    omega
  | succ f ih =>
    intro temp ds order htn hts hds hchain hhead hf
    cases ds with
    | nil => exact ⟨order, visit_nil0 g (f + 1) temp order⟩
    | cons nid rest =>
      have h1 : nid ∉ temp := by
        intro hmem
        cases temp with
        | nil => simp at hmem
        | cons h0 tl =>
          have hstep : depStep g h0 nid = true := hhead nid (by simp)
          have hcyc := tempchain_cycle hchain rfl hmem hstep
          have hlen : (h0 :: tl).length ≤ g.nodes.length := by
            have := nodup_length_le htn (fun x hx => hts x hx)
            rw [dictKeys_length] at this
            exact this
          have := depReach_mono hlen hcyc
          rw [acyclic_no_self hAc (hds nid (by simp))] at this
          exact Bool.false_ne_true this
      by_cases h2 : nid ∈ order
      · obtain ⟨res, hres⟩ := ih temp rest order htn hts
          (fun d hd => hds d (by simp [hd]))
          hchain
          (by
            cases temp with
            | nil => trivial
            | cons h0 tl => exact fun d hd => hhead d (by simp [hd]))
          (by simp at hf ⊢; omega)
        exact ⟨res, by rw [visit_skip h1 h2]; exact hres⟩
      · have hmemk : nid ∈ dictKeys g.nodes := hds nid (by simp)
        have hsome : (dictLookup g.nodes nid).isSome :=
          dictLookup_isSome_iff.mpr hmemk
        cases hlk : dictLookup g.nodes nid with
        | none => rw [hlk] at hsome; simp at hsome
        | some node =>
          obtain ⟨hdn, _, hdk, _, _, _⟩ := wf_node hWF hlk
          have htlen : temp.length < g.nodes.length := by
            have h3 : (nid :: temp).Nodup := by
              rw [List.nodup_cons]; exact ⟨h1, htn⟩
            have h4 : ∀ x ∈ nid :: temp, x ∈ dictKeys g.nodes := by
              intro x hx
              rcases List.mem_cons.mp hx with rfl | hx
              · exact hmemk
              · exact hts x hx
            have := nodup_length_le h3 h4
            rw [dictKeys_length] at this
            simp at this
            omega
          have hdlen : node.dependencies.length ≤ g.nodes.length := by
            have := nodup_length_le hdn hdk
            rw [dictKeys_length] at this
            exact this
          obtain ⟨o2, ho2⟩ := ih (nid :: temp) node.dependencies order
            (by rw [List.nodup_cons]; exact ⟨h1, htn⟩)
            (by
              intro x hx
              rcases List.mem_cons.mp hx with rfl | hx
              · exact hmemk
              · exact hts x hx)
            hdk
            (by
              cases temp with
              | nil => trivial
              | cons h0 tl => exact ⟨hhead nid (by simp), hchain⟩)
            (by
              intro d hd
              simp [depStep, hlk]
              exact hd)
            (by
              have e1 : g.nodes.length - temp.length =
                  (g.nodes.length - (temp.length + 1)) + 1 := by omega
              rw [e1, Nat.add_mul, one_mul] at hf
              simp at hf ⊢
              omega)
          obtain ⟨res, hres⟩ := ih temp rest (o2 ++ [nid]) htn hts
            (fun d hd => hds d (by simp [hd]))
            hchain
            (by
              cases temp with
              | nil => trivial
              | cons h0 tl => exact fun d hd => hhead d (by simp [hd]))
            (by simp at hf ⊢; omega)
          exact ⟨res, by rw [visit_descend_ok h1 h2 hlk ho2]; exact hres⟩

theorem collect_nil (g : ParametricIntentionGraph) (fuel : Nat)
    (affected : List Nat) : collectAffected g fuel affected [] = .ok affected := by
  cases fuel <;> rfl

theorem collect_keyerr {g : ParametricIntentionGraph} {fuel : Nat}
    {affected stack : List Nat} {c : Nat}
    (hlk : dictLookup g.nodes c = none) :
    collectAffected g (fuel + 1) affected (c :: stack) =
      .error (.keyError c) := by
  simp [collectAffected, hlk]

theorem collect_step {g : ParametricIntentionGraph} {fuel : Nat}
    {affected stack : List Nat} {c : Nat} {node : PIGNode}
    (hlk : dictLookup g.nodes c = some node) :
    collectAffected g (fuel + 1) affected (c :: stack) =
      collectAffected g fuel
        (pushDependents node.dependents affected stack).1
        (pushDependents node.dependents affected stack).2 := by
  simp [collectAffected, hlk]

theorem pushDependents_spec :
    ∀ (deps affected toVisit : List Nat),
      ∃ dlt, pushDependents deps affected toVisit =
          (affected ++ dlt, toVisit ++ dlt) ∧
        dlt.Nodup ∧ (∀ x ∈ dlt, x ∈ deps ∧ x ∉ affected) ∧
        (∀ d ∈ deps, d ∈ affected ++ dlt) := by
  intro deps
  induction deps with
  | nil =>
    intro affected toVisit
    exact ⟨[], by simp [pushDependents], by simp, by simp, by simp⟩
  | cons d rest ih =>
    intro affected toVisit
    by_cases hd : d ∈ affected
    · obtain ⟨dlt, heq, hnd, hin, hall⟩ := ih affected toVisit
      refine ⟨dlt, by rw [pushDependents, if_pos hd]; exact heq, hnd, ?_, ?_⟩
      · intro x hx
        exact ⟨by simp [(hin x hx).1], (hin x hx).2⟩
      · intro d2 hd2
        rcases List.mem_cons.mp hd2 with rfl | hd2
        · exact List.mem_append_left _ hd
        · exact hall d2 hd2
    · obtain ⟨dlt, heq, hnd, hin, hall⟩ := ih (affected ++ [d]) (toVisit ++ [d])
      refine ⟨d :: dlt, ?_, ?_, ?_, ?_⟩
      · rw [pushDependents, if_neg hd, heq]
        simp
      · rw [List.nodup_cons]
        refine ⟨fun hc => ?_, hnd⟩
        exact (hin d hc).2 (by simp)
      · intro x hx
        rcases List.mem_cons.mp hx with rfl | hx
        · exact ⟨by simp, hd⟩
        · have h2 := hin x hx
          exact ⟨by simp [h2.1], fun hc => h2.2 (by simp [hc])⟩
      · intro d2 hd2
        rcases List.mem_cons.mp hd2 with rfl | hd2
        · simp
        · have h3 := hall d2 hd2
          simp at h3 ⊢
          tauto

theorem filter_notmem_snoc :
    ∀ (l : List Nat), l.Nodup → ∀ (x : Nat), x ∈ l →
      ∀ (affected : List Nat), x ∉ affected →
      (l.filter (fun k => (k ∉ affected ++ [x] : Bool))).length + 1 =
        (l.filter (fun k => (k ∉ affected : Bool))).length := by
  intro l
  induction l with
  | nil => intro _ x hx; simp at hx
  | cons y rest ih =>
    intro hnd x hx affected hxa
    rw [List.nodup_cons] at hnd
    rcases List.mem_cons.mp hx with rfl | hx2
    · -- head is x: dropped on the left, kept on the right
      have hcongr : rest.filter (fun k => (k ∉ affected ++ [x] : Bool)) =
          rest.filter (fun k => (k ∉ affected : Bool)) := by
        apply List.filter_congr
        intro k hk
        have hkx : k ≠ x := fun hc => hnd.1 (hc ▸ hk)
        simp [hkx]
      simp only [List.filter_cons]
      have e1 : ((x ∉ affected ++ [x] : Bool)) = false := by simp
      have e2 : ((x ∉ affected : Bool)) = true := by simp [hxa]
      rw [e1, e2, hcongr]
      simp
    · have hyx : y ≠ x := fun hc => hnd.1 (hc ▸ hx2)
      have econg : ((y ∉ affected ++ [x] : Bool)) = ((y ∉ affected : Bool)) := by
        simp [hyx]
      by_cases hy : y ∈ affected
      · simp only [List.filter_cons]
        have e1 : ((y ∉ affected ++ [x] : Bool)) = false := by simp [hy]
        have e2 : ((y ∉ affected : Bool)) = false := by simp [hy]
        rw [e1, e2, if_neg (by simp), if_neg (by simp)]
        exact ih hnd.2 x hx2 affected hxa
      · simp only [List.filter_cons]
        have e1 : ((y ∉ affected ++ [x] : Bool)) = true := by simp [hy, hyx]
        have e2 : ((y ∉ affected : Bool)) = true := by simp [hy]
        rw [e1, e2, if_pos rfl, if_pos rfl]
        simp only [List.length_cons]
        have h4 := ih hnd.2 x hx2 affected hxa
        omega

theorem unaffected_append {g : ParametricIntentionGraph}
    (hK : (dictKeys g.nodes).Nodup) :
    ∀ (dlt affected : List Nat), dlt.Nodup →
      (∀ x ∈ dlt, x ∈ dictKeys g.nodes ∧ x ∉ affected) →
      unaffected g (affected ++ dlt) + dlt.length = unaffected g affected := by
  intro dlt
  induction dlt with
  | nil => intro affected _ _; simp
  | cons d rest ih =>
    intro affected hnd hx
    rw [List.nodup_cons] at hnd
    have h1 : unaffected g ((affected ++ [d]) ++ rest) + rest.length =
        unaffected g (affected ++ [d]) := by
      apply ih (affected ++ [d]) hnd.2
      intro x hxr
      refine ⟨(hx x (by simp [hxr])).1, ?_⟩
      intro hc
      rcases List.mem_append.mp hc with hc | hc
      · exact (hx x (by simp [hxr])).2 hc
      · simp at hc
        exact hnd.1 (hc ▸ hxr)
    have h2 : unaffected g (affected ++ [d]) + 1 = unaffected g affected := by
      have hd := hx d (by simp)
      exact filter_notmem_snoc (dictKeys g.nodes) hK d hd.1 affected hd.2
    have e : affected ++ d :: rest = (affected ++ [d]) ++ rest := by simp
    rw [e]
    simp only [List.length_cons]
    omega

theorem depdStep_reach1 {g : ParametricIntentionGraph} {a b : Nat}
    (h : depdStep g a b = true) : depdReach g 1 a b = true := by
  rw [depdReach]
  exact Bool.or_eq_true_iff.mpr (Or.inl h)

theorem depdReach_snoc {g : ParametricIntentionGraph} :
    ∀ {n a b c}, depdReach g n a b = true → depdStep g b c = true →
      depdReach g (n + 1) a c = true := by
  intro n
  induction n with
  | zero => intro a b c h _; simp [depdReach] at h
  | succ k ih =>
    intro a b c h hbc
    rw [depdReach] at h
    rw [depdReach]
    rcases Bool.or_eq_true_iff.mp h with h | h
    · refine Bool.or_eq_true_iff.mpr (Or.inr ?_)
      have hlk : ∃ nd, dictLookup g.nodes a = some nd ∧ b ∈ nd.dependents := by
        rw [depdStep] at h
        cases hl : dictLookup g.nodes a with
        | none => rw [hl] at h; simp at h
        | some nd => rw [hl] at h; exact ⟨nd, rfl, by simpa using h⟩
      obtain ⟨nd, hl, hb⟩ := hlk
      rw [hl]
      simp only [List.any_eq_true]
      refine ⟨b, hb, ?_⟩
      cases k with
      | zero => exact depdStep_reach1 hbc
      | succ k2 =>
        rw [depdReach]
        exact Bool.or_eq_true_iff.mpr (Or.inl hbc)
    · refine Bool.or_eq_true_iff.mpr (Or.inr ?_)
      cases hl : dictLookup g.nodes a with
      | none => rw [hl] at h; simp at h
      | some nd =>
        rw [hl] at h
        simp only [List.any_eq_true] at h ⊢
        obtain ⟨c2, hc2, hr⟩ := h
        exact ⟨c2, hc2, ih hr hbc⟩

theorem depdStep_of_mem {g : ParametricIntentionGraph} {a d : Nat}
    {node : PIGNode} (hlk : dictLookup g.nodes a = some node)
    (hd : d ∈ node.dependents) : depdStep g a d = true := by
  simp [depdStep, hlk]
  exact hd

theorem collect_ok {g : ParametricIntentionGraph} (hWF : wellFormed g = true) :
    ∀ (fuel : Nat) (affected stack : List Nat),
      (∀ s ∈ stack, s ∈ dictKeys g.nodes) →
      fuel ≥ stack.length + unaffected g affected + 1 →
      ∃ res, collectAffected g fuel affected stack = .ok res := by
  intro fuel
  induction fuel with
  | zero => intro affected stack _ hf; omega
  | succ f ih =>
    intro affected stack hst hf
    cases stack with
    | nil => exact ⟨affected, collect_nil g (f + 1) affected⟩
    | cons c s =>
      have hck : c ∈ dictKeys g.nodes := hst c (by simp)
      have hsome : (dictLookup g.nodes c).isSome := dictLookup_isSome_iff.mpr hck
      cases hlk : dictLookup g.nodes c with
      | none => rw [hlk] at hsome; simp at hsome
      | some node =>
        obtain ⟨dlt, heq, hnd, hin, hall⟩ :=
          pushDependents_spec node.dependents affected s
        obtain ⟨_, _, _, hdepk, _, _⟩ := wf_node hWF hlk
        have hU : unaffected g (affected ++ dlt) + dlt.length =
            unaffected g affected := by
          apply unaffected_append (wf_keys_nodup hWF) dlt affected hnd
          intro x hx
          exact ⟨hdepk x (hin x hx).1, (hin x hx).2⟩
        obtain ⟨res, hres⟩ := ih (affected ++ dlt) (s ++ dlt)
          (by
            intro x hx
            rcases List.mem_append.mp hx with hx | hx
            · exact hst x (by simp [hx])
            · exact hdepk x (hin x hx).1)
          (by simp at hf ⊢; omega)
        refine ⟨res, ?_⟩
        rw [collect_step hlk, heq]
        exact hres

theorem collect_sound {g : ParametricIntentionGraph} {p : Nat} :
    ∀ (fuel : Nat) (affected stack res : List Nat),
      collectAffected g fuel affected stack = .ok res →
      (∀ a ∈ affected, ∃ n, depdReach g n p a = true) →
      (∀ s ∈ stack, s = p ∨ ∃ n, depdReach g n p s = true) →
      ∀ a ∈ res, ∃ n, depdReach g n p a = true := by
  intro fuel
  induction fuel with
  | zero =>
    intro affected stack res h hA hS
    cases stack with
    | nil =>
      rw [collect_nil] at h
      injection h with h
      subst h
      exact hA
    | cons c s => exact absurd h (by simp [collectAffected])
  | succ f ih =>
    intro affected stack res h hA hS
    cases stack with
    | nil =>
      rw [collect_nil] at h
      injection h with h
      subst h
      exact hA
    | cons c s =>
      cases hlk : dictLookup g.nodes c with
      | none => rw [collect_keyerr hlk] at h; exact absurd h (by simp)
      | some node =>
        rw [collect_step hlk] at h
        obtain ⟨dlt, heq, hnd, hin, hall⟩ :=
          pushDependents_spec node.dependents affected s
        rw [heq] at h
        have hreach : ∀ x ∈ dlt, ∃ n, depdReach g n p x = true := by
          intro x hx
          have hstep : depdStep g c x = true :=
            depdStep_of_mem hlk (hin x hx).1
          rcases hS c (by simp) with rfl | ⟨n, hn⟩
          · exact ⟨1, depdStep_reach1 hstep⟩
          · exact ⟨n + 1, depdReach_snoc hn hstep⟩
        exact ih (affected ++ dlt) (s ++ dlt) res h
          (by
            intro a ha
            rcases List.mem_append.mp ha with ha | ha
            · exact hA a ha
            · exact hreach a ha)
          (by
            intro x hx
            rcases List.mem_append.mp hx with hx | hx
            · exact hS x (by simp [hx])
            · exact Or.inr (hreach x hx))

theorem collect_complete {g : ParametricIntentionGraph} {p : Nat} :
    ∀ (fuel : Nat) (affected stack res : List Nat),
      collectAffected g fuel affected stack = .ok res →
      (∀ a, (a = p ∨ a ∈ affected) →
        a ∈ stack ∨ (∀ d, depdStep g a d = true → d ∈ affected)) →
      ∀ a, (a = p ∨ a ∈ res) → ∀ d, depdStep g a d = true → d ∈ res := by
  intro fuel
  induction fuel with
  | zero =>
    intro affected stack res h hInv
    cases stack with
    | nil =>
      rw [collect_nil] at h
      injection h with h
      subst h
      intro a ha d hd
      rcases hInv a ha with hc | hc
      · simp at hc
      · exact hc d hd
    | cons c s => exact absurd h (by simp [collectAffected])
  | succ f ih =>
    intro affected stack res h hInv
    cases stack with
    | nil =>
      rw [collect_nil] at h
      injection h with h
      subst h
      intro a ha d hd
      rcases hInv a ha with hc | hc
      · simp at hc
      · exact hc d hd
    | cons c s =>
      cases hlk : dictLookup g.nodes c with
      | none => rw [collect_keyerr hlk] at h; exact absurd h (by simp)
      | some node =>
        rw [collect_step hlk] at h
        obtain ⟨dlt, heq, hnd, hin, hall⟩ :=
          pushDependents_spec node.dependents affected s
        rw [heq] at h
        apply ih (affected ++ dlt) (s ++ dlt) res h
        intro a ha
        rcases ha with rfl | ha
        · rcases hInv a (Or.inl rfl) with hc | hc
          · rcases List.mem_cons.mp hc with rfl | hc
            · refine Or.inr ?_
              intro d hd
              rw [depdStep, hlk] at hd
              exact hall d (by simpa using hd)
            · exact Or.inl (by simp [hc])
          · exact Or.inr fun d hd => by simp [hc d hd]
        · rcases List.mem_append.mp ha with ha | ha
          · rcases hInv a (Or.inr ha) with hc | hc
            · rcases List.mem_cons.mp hc with rfl | hc
              · refine Or.inr ?_
                intro d hd
                rw [depdStep, hlk] at hd
                exact hall d (by simpa using hd)
              · exact Or.inl (by simp [hc])
            · exact Or.inr fun d hd => by simp [hc d hd]
          · exact Or.inl (by simp [ha])

theorem reach_closed {g : ParametricIntentionGraph} {p : Nat} {A : List Nat}
    (hcl : ∀ a, (a = p ∨ a ∈ A) → ∀ d, depdStep g a d = true → d ∈ A) :
    ∀ (n : Nat) (s x : Nat), (s = p ∨ s ∈ A) → depdReach g n s x = true →
      x ∈ A := by
  intro n
  induction n with
  | zero => intro s x _ h; simp [depdReach] at h
  | succ k ih =>
    intro s x hs h
    rw [depdReach] at h
    rcases Bool.or_eq_true_iff.mp h with h | h
    · exact hcl s hs x h
    · cases hlk : dictLookup g.nodes s with
      | none => rw [hlk] at h; simp at h
      | some nd =>
        rw [hlk] at h
        simp only [List.any_eq_true] at h
        obtain ⟨c, hc, hr⟩ := h
        have hcA : c ∈ A := hcl s hs c (depdStep_of_mem hlk hc)
        exact ih c x (Or.inr hcA) hr

theorem lookup_of_mem_nodup {d : List (Nat × PIGNode)} {k : Nat} {n : PIGNode}
    (hnd : (dictKeys d).Nodup) (h : (k, n) ∈ d) : dictLookup d k = some n := by
  induction d with
  | nil => simp at h
  | cons kv rest ih =>
    obtain ⟨k2, v⟩ := kv
    simp only [dictKeys, List.map_cons, List.nodup_cons] at hnd
    rcases List.mem_cons.mp h with heq | h2
    · injection heq with e1 e2
      subst e1; subst e2
      rw [dictLookup, if_pos rfl]
    · have hk2 : k2 ≠ k := by
        intro hc
        subst hc
        exact hnd.1 (by
          simpa [dictKeys] using List.mem_map_of_mem (·.1) h2)
      rw [dictLookup, if_neg hk2]
      exact ih hnd.2 h2

theorem dictUpdate_length (d : List (Nat × PIGNode)) (k : Nat)
    (f : PIGNode → PIGNode) : (dictUpdate d k f).length = d.length := by
  induction d with
  | nil => rfl
  | cons kv rest ih =>
    by_cases h : kv.1 = k <;> simp [dictUpdate, h, ih]

theorem lookup_update_value {d : List (Nat × PIGNode)} {p : Nat} {v : PyVal}
    (k : Nat) :
    dictLookup (dictUpdate d p (fun n => { n with value := v })) k =
      (dictLookup d k).map
        (fun n => if k = p then { n with value := v } else n) := by
  by_cases h : k = p
  · subst h
    rw [dictLookup_dictUpdate_self]
    cases dictLookup d k <;> simp
  · rw [dictLookup_dictUpdate_ne _ _ _ _ h]
    cases dictLookup d k <;> simp [h]

theorem depStep_update {g : ParametricIntentionGraph} {p : Nat} {v : PyVal}
    (a b : Nat) :
    depStep (set_node_value g p v) a b = depStep g a b := by
  rw [depStep, depStep, set_node_value]
  simp only
  rw [lookup_update_value a]
  cases dictLookup g.nodes a with
  | none => simp
  | some n => by_cases h : a = p <;> simp [h]

theorem depdStep_update {g : ParametricIntentionGraph} {p : Nat} {v : PyVal}
    (a b : Nat) :
    depdStep (set_node_value g p v) a b = depdStep g a b := by
  rw [depdStep, depdStep, set_node_value]
  simp only
  rw [lookup_update_value a]
  cases dictLookup g.nodes a with
  | none => simp
  | some n => by_cases h : a = p <;> simp [h]

theorem depReach_update {g : ParametricIntentionGraph} {p : Nat} {v : PyVal} :
    ∀ (n : Nat) (a b : Nat),
      depReach (set_node_value g p v) n a b = depReach g n a b := by
  intro n
  induction n with
  | zero => intro a b; rfl
  | succ k ih =>
    intro a b
    rw [depReach, depReach, depStep_update]
    congr 1
    rw [show (set_node_value g p v).nodes = dictUpdate g.nodes p (fun n => { n with value := v }) from rfl]
    rw [lookup_update_value a]
    cases dictLookup g.nodes a with
    | none => simp
    | some nd =>
      by_cases h : a = p <;> simp [h] <;>
        exact congrArg _ (funext fun c => ih c b)

theorem depdReach_update {g : ParametricIntentionGraph} {p : Nat} {v : PyVal} :
    ∀ (n : Nat) (a b : Nat),
      depdReach (set_node_value g p v) n a b = depdReach g n a b := by
  intro n
  induction n with
  | zero => intro a b; rfl
  | succ k ih =>
    intro a b
    rw [depdReach, depdReach, depdStep_update]
    congr 1
    rw [show (set_node_value g p v).nodes = dictUpdate g.nodes p (fun n => { n with value := v }) from rfl]
    rw [lookup_update_value a]
    cases dictLookup g.nodes a with
    | none => simp
    | some nd =>
      by_cases h : a = p <;> simp [h] <;>
        exact congrArg _ (funext fun c => ih c b)

theorem dictKeys_set_node_value (g : ParametricIntentionGraph) (p : Nat)
    (v : PyVal) : dictKeys (set_node_value g p v).nodes = dictKeys g.nodes := by
  rw [set_node_value]
  exact dictKeys_dictUpdate g.nodes p _

theorem length_set_node_value (g : ParametricIntentionGraph) (p : Nat)
    (v : PyVal) : (set_node_value g p v).nodes.length = g.nodes.length := by
  rw [set_node_value]
  exact dictUpdate_length g.nodes p _

theorem wellFormed_set_node_value {g : ParametricIntentionGraph} {p : Nat}
    {v : PyVal} (h : wellFormed g = true) :
    wellFormed (set_node_value g p v) = true := by
  rw [wellFormed, Bool.and_eq_true, List.all_eq_true]
  constructor
  · rw [dictKeys_set_node_value]
    exact decide_eq_true (wf_keys_nodup h)
  · intro kn hkn
    obtain ⟨k, n2⟩ := kn
    have hlk2 : dictLookup (set_node_value g p v).nodes k = some n2 := by
      apply lookup_of_mem_nodup _ hkn
      rw [dictKeys_set_node_value]
      exact wf_keys_nodup h
    have hlk2' := hlk2
    rw [set_node_value] at hlk2'
    rw [lookup_update_value k] at hlk2'
    cases hlk : dictLookup g.nodes k with
    | none => rw [hlk] at hlk2'; simp at hlk2'
    | some n =>
      rw [hlk] at hlk2'
      simp at hlk2'
      have hsame : n2.dependencies = n.dependencies ∧
          n2.dependents = n.dependents := by
        by_cases hkp : k = p
        · rw [if_pos hkp] at hlk2'; rw [← hlk2']
          exact ⟨rfl, rfl⟩
        · rw [if_neg hkp] at hlk2'; rw [← hlk2']
          exact ⟨rfl, rfl⟩
      obtain ⟨hwf1, hwf2, hwf3, hwf4, hwf5, hwf6⟩ := wf_node h hlk
      simp only [Bool.and_eq_true, List.all_eq_true, decide_eq_true_eq]
      rw [hsame.1, hsame.2]
      refine ⟨⟨⟨⟨⟨hwf1, hwf2⟩, ?_⟩, ?_⟩, ?_⟩, ?_⟩
      · intro d hd
        rw [dictKeys_set_node_value]
        exact hwf3 d hd
      · intro d hd
        rw [dictKeys_set_node_value]
        exact hwf4 d hd
      · intro d hd
        rw [depdStep_update]
        exact hwf5 d hd
      · intro d hd
        rw [depStep_update]
        exact hwf6 d hd

theorem acyclicB_set_node_value {g : ParametricIntentionGraph} {p : Nat}
    {v : PyVal} (h : acyclicB g = true) :
    acyclicB (set_node_value g p v) = true := by
  rw [acyclicB, List.all_eq_true]
  intro id hid
  rw [dictKeys_set_node_value] at hid
  rw [depReach_update, length_set_node_value]
  rw [acyclicB, List.all_eq_true] at h
  exact h id hid

theorem reach_target_mem {g : ParametricIntentionGraph}
    (hWF : wellFormed g = true) :
    ∀ (n a b : Nat), depdReach g n a b = true → b ∈ dictKeys g.nodes := by
  intro n
  induction n with
  | zero => intro a b h; simp [depdReach] at h
  | succ k ih =>
    intro a b h
    rw [depdReach] at h
    rcases Bool.or_eq_true_iff.mp h with h | h
    · rw [depdStep] at h
      cases hlk : dictLookup g.nodes a with
      | none => rw [hlk] at h; simp at h
      | some nd =>
        rw [hlk] at h
        obtain ⟨_, _, _, hk, _, _⟩ := wf_node hWF hlk
        exact hk b (by simpa using h)
    · cases hlk : dictLookup g.nodes a with
      | none => rw [hlk] at h; simp at h
      | some nd =>
        rw [hlk] at h
        simp only [List.any_eq_true] at h
        obtain ⟨c, _, hr⟩ := h
        exact ih c b hr

theorem step_before {g : ParametricIntentionGraph} {T : List Nat}
    (hWF : wellFormed g = true) (hG : GoodOrder g T)
    (hall : ∀ k ∈ dictKeys g.nodes, k ∈ T) {a b : Nat}
    (h : depdStep g a b = true) : Before T a b := by
  rw [depdStep] at h
  cases hlk : dictLookup g.nodes a with
  | none => rw [hlk] at h; simp at h
  | some nd =>
    rw [hlk] at h
    have hb : b ∈ nd.dependents := by simpa using h
    obtain ⟨_, _, _, hk, _, hmir⟩ := wf_node hWF hlk
    have hstep : depStep g b a = true := hmir b hb
    rw [depStep] at hstep
    cases hlkb : dictLookup g.nodes b with
    | none => rw [hlkb] at hstep; simp at hstep
    | some nb =>
      rw [hlkb] at hstep
      have ha : a ∈ nb.dependencies := by simpa using hstep
      have hbT : b ∈ T := hall b (hk b hb)
      obtain ⟨l1, l2, hsplit⟩ := List.append_of_mem hbT
      have hal1 : a ∈ l1 := hG.2 l1 b l2 hsplit nb hlkb a ha
      exact Before_of_mem_split hsplit hal1

theorem good_before {g : ParametricIntentionGraph} {T : List Nat}
    (hWF : wellFormed g = true) (hG : GoodOrder g T)
    (hall : ∀ k ∈ dictKeys g.nodes, k ∈ T) :
    ∀ (n a b : Nat), depdReach g n a b = true → Before T a b := by
  intro n
  induction n with
  | zero => intro a b h; simp [depdReach] at h
  | succ k ih =>
    intro a b h
    rw [depdReach] at h
    rcases Bool.or_eq_true_iff.mp h with h | h
    · exact step_before hWF hG hall h
    · cases hlk : dictLookup g.nodes a with
      | none => rw [hlk] at h; simp at h
      | some nd =>
        rw [hlk] at h
        simp only [List.any_eq_true] at h
        obtain ⟨c, hc, hr⟩ := h
        have h1 : Before T a c :=
          step_before hWF hG hall (depdStep_of_mem hlk hc)
        exact Before_trans hG.1 h1 (ih c b hr)

theorem get_execution_order_ok {g : ParametricIntentionGraph}
    (hWF : wellFormed g = true) (hAc : acyclicB g = true) :
    ∃ T, get_execution_order g = .ok T ∧ GoodOrder g T ∧
      (∀ k ∈ dictKeys g.nodes, k ∈ T) ∧ (∀ x ∈ T, x ∈ dictKeys g.nodes) := by
  obtain ⟨T, hT⟩ := visit_ok hWF hAc (execFuel g) [] (dictKeys g.nodes) []
    (by simp) (by simp) (fun d hd => hd) trivial trivial
    (by rw [execFuel, dictKeys_length]; simp)
  obtain ⟨⟨dlt, hres, hdlt⟩, hmem⟩ :=
    visit_spec (execFuel g) [] (dictKeys g.nodes) [] T hT
  have hgood : GoodOrder g T :=
    visit_good (execFuel g) [] (dictKeys g.nodes) [] T
      ⟨by simp, by intro l1 x l2 hsplit; simp at hsplit⟩ hT
  refine ⟨T, hT, hgood, hmem, ?_⟩
  intro x hx
  rw [hres] at hx
  simp at hx
  exact (hdlt x hx).2

theorem update_parameter_spec {g : ParametricIntentionGraph} {p : Nat}
    {v : PyVal} {node : PIGNode}
    (hWF : wellFormed g = true) (hAc : acyclicB g = true)
    (hp : dictLookup g.nodes p = some node) :
    ∃ res, ParametricIntentionGraph.update_parameter g p v =
        .ok (set_node_value g p v, res) ∧
      res.Nodup ∧
      (∀ x, x ∈ res ↔ ReachD g p x) ∧
      (∀ a b, ReachD g a b → a ∈ res → b ∈ res → Before res a b) := by
  set g2 := set_node_value g p v with hg2
  have hWF2 : wellFormed g2 = true := wellFormed_set_node_value hWF
  have hAc2 : acyclicB g2 = true := acyclicB_set_node_value hAc
  have hpk : p ∈ dictKeys g2.nodes := by
    rw [hg2, dictKeys_set_node_value]
    exact dictLookup_mem_keys hp
  -- the worklist run succeeds
  obtain ⟨aff, haff⟩ := collect_ok hWF2 (collectFuel g2) [] [p]
    (by intro s hs; simp at hs; subst hs; exact hpk)
    (by
      have hU : unaffected g2 [] = g2.nodes.length := by
        simp [unaffected, dictKeys_length]
      rw [ParametricIntentionGraph.collectFuel, hU]
      simp
      omega)
  -- membership in the worklist result is reachability (in g2, hence in g)
  have hchar : ∀ x, x ∈ aff ↔ ∃ n, depdReach g2 n p x = true := by
    intro x
    constructor
    · intro hx
      exact collect_sound (ParametricIntentionGraph.collectFuel g2) [] [p] aff
        haff (by simp) (by intro s hs; simp at hs; exact Or.inl hs) x hx
    · rintro ⟨n, hn⟩
      have hcl := collect_complete (p := p)
        (ParametricIntentionGraph.collectFuel g2) [] [p] aff haff
        (by
          intro a ha
          rcases ha with rfl | ha
          · exact Or.inl (by simp)
          · simp at ha)
      exact reach_closed hcl n p x (Or.inl rfl) hn
  -- the topological sort of g2 succeeds
  obtain ⟨T, hT, hgood, hTall, hTsub⟩ := get_execution_order_ok hWF2 hAc2
  refine ⟨T.filter (· ∈ aff), ?_, ?_, ?_, ?_⟩
  · unfold ParametricIntentionGraph.update_parameter
    rw [hp]
    simp only [← hg2, haff, hT]
  · exact hgood.1.filter _
  · intro x
    rw [List.mem_filter]
    constructor
    · rintro ⟨hxT, hxa⟩
      have hx2 : x ∈ aff := by simpa using hxa
      obtain ⟨n, hn⟩ := (hchar x).mp hx2
      rw [depdReach_update] at hn
      exact ⟨n, hn⟩
    · rintro ⟨n, hn⟩
      have hn2 : depdReach g2 n p x = true := by
        rw [hg2, depdReach_update]
        exact hn
      refine ⟨?_, by simpa using (hchar x).mpr ⟨n, hn2⟩⟩
      exact hTall x (reach_target_mem hWF2 n p x hn2)
  · rintro a b ⟨n, hn⟩ ha hb
    have hn2 : depdReach g2 n a b = true := by
      rw [hg2, depdReach_update]
      exact hn
    have hBT : Before T a b := good_before hWF2 hgood hTall n a b hn2
    rw [List.mem_filter] at ha hb
    exact Before_filter _ hBT ha.2 hb.2

theorem setAdd_mem (s : List Nat) (x : Nat) : x ∈ setAdd s x := by
  by_cases h : x ∈ s <;> simp [setAdd, h]

/-- C1: for every well-formed acyclic PIG and parameter node `p`,
`update_parameter p v` writes `v` into `p` (all other nodes unchanged)
and returns a duplicate-free list holding exactly the nodes
transitively reachable from `p` via `dependents`, listed in
topological order (reachability implies strictly-earlier position). -/
theorem claim_C1 (g : ParametricIntentionGraph) (p : Nat) (v : PyVal)
    (node : PIGNode) (hWF : wellFormed g = true) (hAc : acyclicB g = true)
    (hp : dictLookup g.nodes p = some node)
    (_hparam : node.node_type = NodeType.parameter) :
    ∃ res, update_parameter g p v = .ok (set_node_value g p v, res) ∧
      dictLookup (set_node_value g p v).nodes p =
        some { node with value := v } ∧
      (∀ q, q ≠ p →
        dictLookup (set_node_value g p v).nodes q = dictLookup g.nodes q) ∧
      res.Nodup ∧
      (∀ x, x ∈ res ↔ ReachD g p x) ∧
      (∀ a b, ReachD g a b → a ∈ res → b ∈ res → Before res a b) := by
  obtain ⟨res, h1, h2, h3, h4⟩ := update_parameter_spec hWF hAc hp
  refine ⟨res, h1, ?_, ?_, h2, h3, h4⟩
  · show dictLookup
      (dictUpdate g.nodes p (fun n => { n with value := v })) p = _
    rw [dictLookup_dictUpdate_self, hp]
    rfl
  · intro q hq
    show dictLookup
      (dictUpdate g.nodes p (fun n => { n with value := v })) q = _
    exact dictLookup_dictUpdate_ne g.nodes p q _ hq

theorem claim_C1_witness :
    wellFormed exampleGraph = true ∧ acyclicB exampleGraph = true ∧
    dictLookup exampleGraph.nodes 1 = some exampleP1 ∧
    exampleP1.node_type = NodeType.parameter ∧
    (∃ res, update_parameter exampleGraph 1 (.num 40) =
        .ok (set_node_value exampleGraph 1 (.num 40), res) ∧
      dictLookup (set_node_value exampleGraph 1 (.num 40)).nodes 1 =
        some { exampleP1 with value := .num 40 } ∧
      (∀ q, q ≠ 1 →
        dictLookup (set_node_value exampleGraph 1 (.num 40)).nodes q =
          dictLookup exampleGraph.nodes q) ∧
      res.Nodup ∧
      (∀ x, x ∈ res ↔ ReachD exampleGraph 1 x) ∧
      (∀ a b, ReachD exampleGraph a b → a ∈ res → b ∈ res →
        Before res a b)) :=
  ⟨by decide, by decide, by decide, by decide,
    claim_C1 exampleGraph 1 (.num 40) exampleP1
      (by decide) (by decide) (by decide) (by decide)⟩

/-- C2 counterexample: `add_dependency` performs no cycle check — in
`cycleGraph` both edges of a 2-cycle were accepted at insertion time,
the graph is cyclic, and `get_execution_order` raises `CycleDetected`
(which `update_parameter`, `_extract_operations` etc. then propagate),
contradicting the claim that cycle-forming edges are rejected up front
and that the cycle failure is never raised. -/
theorem claim_C2_counterexample :
    depStep cycleGraph 1 2 = true ∧ depStep cycleGraph 2 1 = true ∧
    get_execution_order cycleGraph = .error (.cycleDetected 1) ∧
    acyclicB cycleGraph = false :=
  ⟨by decide, by decide, by rfl, by decide⟩

/-- C2 amended: `add_dependency` inserts the requested edge whenever
both endpoints exist, unconditionally — no cycle check is made, so the
graph need not stay acyclic and `get_execution_order` can subsequently
fail with `CycleDetected` (see the counterexample). -/
theorem claim_C2_amended (g : ParametricIntentionGraph) (a b : Nat)
    (ha : (dictLookup g.nodes a).isSome = true)
    (hb : (dictLookup g.nodes b).isSome = true) :
    depStep (add_dependency g a b) a b = true ∧
    depdStep (add_dependency g a b) b a = true := by
  have hc : (dictLookup g.nodes a).isSome ∧ (dictLookup g.nodes b).isSome :=
    ⟨ha, hb⟩
  have hnodes : (add_dependency g a b).nodes =
      dictUpdate
        (dictUpdate g.nodes a
          (fun n => { n with dependencies := setAdd n.dependencies b }))
        b (fun n => { n with dependents := setAdd n.dependents a }) := by
    rw [add_dependency, if_pos hc]
    dsimp only
    split
    · rfl
    · rfl
  constructor
  · rw [depStep, hnodes]
    by_cases hab : a = b
    · subst hab
      rw [dictLookup_dictUpdate_self, dictLookup_dictUpdate_self]
      cases hlk : dictLookup g.nodes a with
      | none => rw [hlk] at ha; simp at ha
      | some na => simp [setAdd_mem]
    · rw [dictLookup_dictUpdate_ne _ b a _ hab, dictLookup_dictUpdate_self]
      cases hlk : dictLookup g.nodes a with
      | none => rw [hlk] at ha; simp at ha
      | some na => simp [setAdd_mem]
  · rw [depdStep, hnodes, dictLookup_dictUpdate_self]
    by_cases hab : a = b
    · subst hab
      rw [dictLookup_dictUpdate_self]
      cases hlk : dictLookup g.nodes a with
      | none => rw [hlk] at ha; simp at ha
      | some na => simp [setAdd_mem]
    · rw [dictLookup_dictUpdate_ne _ a b _ (Ne.symm hab)]
      cases hlk : dictLookup g.nodes b with
      | none => rw [hlk] at hb; simp at hb
      | some nb => simp [setAdd_mem]

theorem claim_C2_amended_witness :
    ((dictLookup exampleGraph.nodes 3).isSome = true) ∧
    ((dictLookup exampleGraph.nodes 2).isSome = true) ∧
    (depStep (add_dependency exampleGraph 3 2) 3 2 = true ∧
      depdStep (add_dependency exampleGraph 3 2) 2 3 = true) :=
  ⟨by decide, by decide,
    claim_C2_amended exampleGraph 3 2 (by decide) (by decide)⟩

open PIGManager

theorem dictAssign_not_mem {d : List (Nat × PIGNode)} {k : Nat} {v : PIGNode}
    (h : k ∉ dictKeys d) : dictAssign d k v = d ++ [(k, v)] := by
  induction d with
  | nil => rfl
  | cons kv rest ih =>
    obtain ⟨k2, v2⟩ := kv
    simp only [dictKeys, List.map_cons, List.mem_cons] at h
    push_neg at h
    rw [dictAssign, if_neg (by simpa using Ne.symm h.1)]
    rw [ih (by simpa [dictKeys] using h.2)]
    simp

theorem add_node_nodes (g : ParametricIntentionGraph) (id : Nat)
    (node : PIGNode) :
    (g.add_node id node).nodes = dictAssign g.nodes id node := by
  rw [ParametricIntentionGraph.add_node]
  dsimp only
  split
  · rfl
  · rfl

theorem add_parameter_fresh {m : PIGManager} (hb : keysBelow m)
    (name : String) (v : PyVal) (pt : ParameterType) (d u : Option String)
    (mn mx : Option ℚ) :
    (add_parameter m name v pt d u mn mx).1.pig.nodes =
      m.pig.nodes ++ [(m.next_id,
        { name := name, node_type := .parameter, value := v,
          description := d, parameter_type := some pt,
          min_value := mn, max_value := mx, units := u })] ∧
    (add_parameter m name v pt d u mn mx).1.next_id = m.next_id + 1 ∧
    (add_parameter m name v pt d u mn mx).1.version_history =
      m.version_history ∧
    (add_parameter m name v pt d u mn mx).2 = m.next_id := by
  have hfresh : m.next_id ∉ dictKeys m.pig.nodes := by
    intro hc
    exact absurd (hb m.next_id hc) (by omega)
  refine ⟨?_, rfl, rfl, rfl⟩
  show (m.pig.add_node m.next_id _).nodes = _
  rw [add_node_nodes, dictAssign_not_mem hfresh]

/-- C3 counterexample: `PIGManager.add_parameter` called with the
already-present name "cylinder_height" creates a second parameter node
with that name and returns the fresh id 2 — it neither updates in
place nor returns the existing id 0, so names are not kept unique. -/
theorem claim_C3_counterexample :
    exMgr.pig.find_parameter_by_name "cylinder_height" = some 0 ∧
    countParamsNamed exMgr.pig "cylinder_height" = 1 ∧
    (add_parameter exMgr "cylinder_height" (.num 5)
      .numeric none none none none).2 = 2 ∧
    countParamsNamed (add_parameter exMgr "cylinder_height" (.num 5)
      .numeric none none none none).1.pig "cylinder_height" = 2 :=
  ⟨by decide, by decide, by decide, by decide⟩

/-- C3 amended: the in-place, id-preserving rebind lives in the
internal `_add_parameter_to_pig` (used by plan absorption), which on a
case-insensitive name hit writes the value onto the existing node and
creates nothing; `PIGManager.add_parameter` itself always creates a
fresh node (and returns its fresh id), even for an existing name. -/
theorem claim_C3_amended :
    (∀ (m : PIGManager) (name : String) (v : PyVal) (id : Nat),
      m.pig.find_parameter_by_name name = some id →
      (add_parameter_to_pig m name v).pig = m.pig.set_node_value id v ∧
      dictKeys (add_parameter_to_pig m name v).pig.nodes =
        dictKeys m.pig.nodes ∧
      (add_parameter_to_pig m name v).next_id = m.next_id ∧
      dictLookup (add_parameter_to_pig m name v).pig.nodes id =
        (dictLookup m.pig.nodes id).map
          (fun n => { n with value := v })) ∧
    (∀ (m : PIGManager) (name : String) (v : PyVal)
      (pt : ParameterType) (d u : Option String) (mn mx : Option ℚ),
      keysBelow m →
      (add_parameter m name v pt d u mn mx).2 = m.next_id ∧
      m.next_id ∉ dictKeys m.pig.nodes ∧
      (add_parameter m name v pt d u mn mx).1.pig.nodes =
        m.pig.nodes ++ [(m.next_id,
          { name := name, node_type := .parameter, value := v,
            description := d, parameter_type := some pt,
            min_value := mn, max_value := mx, units := u })]) := by
  constructor
  · intro m name v id hfind
    rw [add_parameter_to_pig, hfind]
    refine ⟨rfl, ?_, rfl, ?_⟩
    · exact dictKeys_set_node_value m.pig id v
    · show dictLookup
        (dictUpdate m.pig.nodes id (fun n => { n with value := v })) id = _
      exact dictLookup_dictUpdate_self m.pig.nodes id _
  · intro m name v pt d u mn mx hb
    obtain ⟨h1, _, _, h4⟩ := add_parameter_fresh hb name v pt d u mn mx
    refine ⟨h4, ?_, h1⟩
    intro hc
    exact absurd (hb m.next_id hc) (by omega)

theorem claim_C3_witness :
    (exMgr.pig.find_parameter_by_name "CYLINDER_Height" = some 0) ∧
    ((add_parameter_to_pig exMgr "CYLINDER_Height" (.num 7)).pig =
        exMgr.pig.set_node_value 0 (.num 7) ∧
      dictKeys (add_parameter_to_pig exMgr "CYLINDER_Height"
          (.num 7)).pig.nodes = dictKeys exMgr.pig.nodes ∧
      (add_parameter_to_pig exMgr "CYLINDER_Height" (.num 7)).next_id =
        exMgr.next_id ∧
      dictLookup (add_parameter_to_pig exMgr "CYLINDER_Height"
          (.num 7)).pig.nodes 0 =
        (dictLookup exMgr.pig.nodes 0).map
          (fun n => { n with value := PyVal.num 7 })) ∧
    keysBelow exMgr ∧
    ((add_parameter exMgr "fresh_param" (.num 1)
        .numeric none none none none).2 = exMgr.next_id ∧
      exMgr.next_id ∉ dictKeys exMgr.pig.nodes ∧
      (add_parameter exMgr "fresh_param" (.num 1)
          .numeric none none none none).1.pig.nodes =
        exMgr.pig.nodes ++ [(exMgr.next_id,
          { name := "fresh_param", node_type := .parameter,
            value := .num 1, description := none,
            parameter_type := some .numeric, min_value := none,
            max_value := none, units := none })]) :=
  ⟨by decide,
    claim_C3_amended.1 exMgr "CYLINDER_Height" (.num 7) 0 (by decide),
    by decide,
    claim_C3_amended.2 exMgr "fresh_param" (.num 1)
      .numeric none none none none (by decide)⟩

set_option maxRecDepth 8192 in
/-- C6 counterexample: `create_version_checkpoint` appends to the
version history without enforcing the cap, so 101 checkpoints leave
101 entries — more than the claimed 100-entry maximum. -/
theorem claim_C6_counterexample :
    (iterCheckpoint^[101] ({} : PIGManager)).version_history.length = 101 :=
  by decide

/-- C6 amended: entries written through `_add_version_to_history`
(direct_edit, parameter_update, load_previous) keep the history at no
more than 100 entries, trimming the oldest (the result is a suffix of
the appended list); `create_version_checkpoint`, however, appends its
checkpoint entry with no trimming, growing the history by one each
time without bound. -/
theorem claim_C6_amended :
    (∀ (m : PIGManager) (t : String),
      (add_version_to_history m t).version_history.length ≤ 100 ∧
      (add_version_to_history m t).version_history.length =
        min (m.version_history.length + 1) 100 ∧
      List.IsSuffix (add_version_to_history m t).version_history
        (m.version_history ++ [HistoryEntry.logged t])) ∧
    (∀ (m : PIGManager) (d : Option String) (m2 : PIGManager) (cid : Nat),
      create_version_checkpoint m d = .ok (m2, cid) →
      (∃ cp, m2.version_history =
        m.version_history ++ [HistoryEntry.checkpoint cp]) ∧
      m2.version_history.length = m.version_history.length + 1) := by
  constructor
  · intro m t
    rw [add_version_to_history]
    by_cases hlen : (m.version_history ++ [HistoryEntry.logged t]).length > 100
    · rw [if_pos hlen]
      simp only [List.length_drop]
      simp only [List.length_append, List.length_cons,
        List.length_nil] at hlen ⊢
      refine ⟨by omega, by omega, List.drop_suffix _ _⟩
    · rw [if_neg hlen]
      simp only [List.length_append, List.length_cons,
        List.length_nil] at hlen ⊢
      exact ⟨by omega, by omega, List.suffix_refl _⟩
  · intro m d m2 cid h
    rw [create_version_checkpoint] at h
    cases hops : extract_operations m.pig with
    | error e => rw [hops] at h; simp at h
    | ok ops =>
      rw [hops] at h
      simp only [Except.ok.injEq, Prod.mk.injEq] at h
      obtain ⟨hm2, _⟩ := h
      rw [← hm2]
      exact ⟨⟨_, rfl⟩, by simp⟩

theorem claim_C6_amended_witness :
    ((add_version_to_history exMgr "direct_edit").version_history.length
        ≤ 100 ∧
      (add_version_to_history exMgr "direct_edit").version_history.length =
        min (exMgr.version_history.length + 1) 100 ∧
      List.IsSuffix
        (add_version_to_history exMgr "direct_edit").version_history
        (exMgr.version_history ++ [HistoryEntry.logged "direct_edit"])) ∧
    (create_version_checkpoint exMgr none =
        .ok (iterCheckpoint exMgr, 2)) ∧
    ((∃ cp, (iterCheckpoint exMgr).version_history =
        exMgr.version_history ++ [HistoryEntry.checkpoint cp]) ∧
      (iterCheckpoint exMgr).version_history.length =
        exMgr.version_history.length + 1) :=
  ⟨claim_C6_amended.1 exMgr "direct_edit", by decide,
    claim_C6_amended.2 exMgr none (iterCheckpoint exMgr) 2 (by decide)⟩

theorem checkpoint_pig {m : PIGManager} {d : Option String}
    {m1 : PIGManager} {cid : Nat}
    (h : create_version_checkpoint m d = .ok (m1, cid)) :
    m1.pig = m.pig := by
  rw [create_version_checkpoint] at h
  cases hops : extract_operations m.pig with
  | error e => rw [hops] at h; simp at h
  | ok ops =>
    rw [hops] at h
    simp only [Except.ok.injEq, Prod.mk.injEq] at h
    rw [← h.1]

theorem validate_congr_pig {m m1 : PIGManager} (h : m1.pig = m.pig)
    (name : String) (v : PyVal) :
    validate_parameter_value m1 name v = validate_parameter_value m name v := by
  rw [validate_parameter_value, validate_parameter_value, h]

theorem update_ok_graph {g : ParametricIntentionGraph} {pid : Nat}
    {v : PyVal} {g2 : ParametricIntentionGraph} {aff : List Nat}
    (h : g.update_parameter pid v = .ok (g2, aff)) :
    g2 = g.set_node_value pid v := by
  rw [ParametricIntentionGraph.update_parameter] at h
  cases hlk : dictLookup g.nodes pid with
  | none => rw [hlk] at h; simp at h
  | some node =>
    rw [hlk] at h
    simp only at h
    cases hcol : ParametricIntentionGraph.collectAffected
        (g.set_node_value pid v)
        (ParametricIntentionGraph.collectFuel (g.set_node_value pid v))
        [] [pid] with
    | error e => rw [hcol] at h; simp at h
    | ok aff2 =>
      rw [hcol] at h
      cases hgeo : ParametricIntentionGraph.get_execution_order
          (g.set_node_value pid v) with
      | error e => rw [hgeo] at h; simp at h
      | ok T =>
        rw [hgeo] at h
        simp only [Except.ok.injEq, Prod.mk.injEq] at h
        rw [← h.1]

theorem upv_ok {m : PIGManager} {name : String} {v : PyVal}
    {m3 : PIGManager} {aff : List Nat}
    (h : update_parameter_value m name v = .ok (m3, aff)) :
    ∃ pid, m.pig.find_parameter_by_name name = some pid ∧
      m3.pig = m.pig.set_node_value pid v ∧
      m3.version_history = m.version_history ∧ m3.next_id = m.next_id := by
  rw [update_parameter_value] at h
  cases hfind : m.pig.find_parameter_by_name name with
  | none => rw [hfind] at h; simp at h
  | some pid =>
    simp only [hfind] at h
    cases hupd : m.pig.update_parameter pid v with
    | error e => simp only [hupd] at h; simp at h
    | ok pr =>
      simp only [hupd] at h
      obtain ⟨g2, aff2⟩ := pr
      simp only [Except.ok.injEq, Prod.mk.injEq] at h
      refine ⟨pid, rfl, ?_, ?_, ?_⟩
      · rw [← h.1]
        simpa using update_ok_graph hupd
      · rw [← h.1]
      · rw [← h.1]

theorem validate_numeric_eq {m : PIGManager} {name : String} {v : PyVal}
    {pid : Nat} {node : PIGNode}
    (hfind : m.pig.find_parameter_by_name name = some pid)
    (hlk : dictLookup m.pig.nodes pid = some node)
    (hpt : node.parameter_type = some ParameterType.numeric) :
    validate_parameter_value m name v =
      (if !v.isIntFloat then .invalid (.typeMismatch .numeric)
       else match node.min_value with
         | some mn =>
           if v.asQ < mn then .invalid (.outOfBoundsMin mn)
           else match node.max_value with
             | some mx =>
               if mx < v.asQ then .invalid (.outOfBoundsMax mx) else .valid
             | none => .valid
         | none => match node.max_value with
           | some mx =>
             if mx < v.asQ then .invalid (.outOfBoundsMax mx) else .valid
           | none => .valid) := by
  rw [validate_parameter_value]
  simp only [hfind, hlk, hpt]
  try rfl

/-- C4 amended: `update_parameter_value` only fails when the name is
unknown (`ParameterNotFound`) and otherwise writes unvalidated;
declared-type and `[min,max]` validation happens in
`_validate_parameter_value`, consulted only by
`enhanced_parameter_update`, which reports type/bound failures per
parameter and performs the write only when validation succeeds. -/
theorem claim_C4_amended :
    (∀ (m : PIGManager) (name : String) (v : PyVal),
      m.pig.find_parameter_by_name name = none →
      update_parameter_value m name v = .error (.paramNotFound name)) ∧
    (∀ (m : PIGManager) (name : String) (v : PyVal) (pid : Nat)
      (node : PIGNode),
      m.pig.find_parameter_by_name name = some pid →
      dictLookup m.pig.nodes pid = some node →
      node.parameter_type = some ParameterType.numeric →
      (v.isIntFloat = false →
        validate_parameter_value m name v =
          .invalid (.typeMismatch .numeric)) ∧
      (∀ mn, v.isIntFloat = true → node.min_value = some mn →
        v.asQ < mn →
        validate_parameter_value m name v =
          .invalid (.outOfBoundsMin mn)) ∧
      (∀ mx, v.isIntFloat = true → node.max_value = some mx →
        (∀ mn, node.min_value = some mn → ¬ v.asQ < mn) → mx < v.asQ →
        validate_parameter_value m name v =
          .invalid (.outOfBoundsMax mx)) ∧
      (v.isIntFloat = true →
        (∀ mn, node.min_value = some mn → ¬ v.asQ < mn) →
        (∀ mx, node.max_value = some mx → ¬ mx < v.asQ) →
        validate_parameter_value m name v = .valid)) ∧
    (∀ (m : PIGManager) (name : String) (v : PyVal) (m2 : PIGManager)
      (outs : List (String × UpdateOutcome)) (e : ValidationError),
      validate_parameter_value m name v = .invalid e →
      enhanced_parameter_update m [(name, v)] = .ok (m2, outs) →
      m2.pig = m.pig ∧ outs = [(name, UpdateOutcome.failed e)]) ∧
    (∀ (m : PIGManager) (name : String) (v : PyVal) (m1 : PIGManager)
      (cid : Nat) (m3 : PIGManager) (aff : List Nat) (pid : Nat),
      create_version_checkpoint m none = .ok (m1, cid) →
      validate_parameter_value m name v = .valid →
      update_parameter_value m1 name v = .ok (m3, aff) →
      m.pig.find_parameter_by_name name = some pid →
      enhanced_parameter_update m [(name, v)] =
        .ok (add_version_to_history m3 "parameter_update",
          [(name, UpdateOutcome.success v aff)]) ∧
      (add_version_to_history m3 "parameter_update").pig =
        m.pig.set_node_value pid v) := by
  refine ⟨?_, ?_, ?_, ?_⟩
  · intro m name v hfind
    rw [update_parameter_value]
    simp only [hfind]
  · intro m name v pid node hfind hlk hpt
    refine ⟨?_, ?_, ?_, ?_⟩
    · intro hif
      rw [validate_numeric_eq hfind hlk hpt]
      simp [hif]
    · intro mn hif hmn hlt
      rw [validate_numeric_eq hfind hlk hpt]
      simp [hif, hmn, hlt]
    · intro mx hif hmx hmn hlt
      rw [validate_numeric_eq hfind hlk hpt]
      cases hmnv : node.min_value with
      | none => simp [hif, hmx, hlt]
      | some mn =>
        have hnlt : ¬ v.asQ < mn := hmn mn hmnv
        simp [hif, hmx, hmnv, hnlt, hlt]
    · intro hif hmn hmx
      rw [validate_numeric_eq hfind hlk hpt]
      cases hmnv : node.min_value with
      | none =>
        cases hmxv : node.max_value with
        | none => simp [hif]
        | some mx => simp [hif, hmxv, hmx mx hmxv]
      | some mn =>
        cases hmxv : node.max_value with
        | none => simp [hif, hmnv, hmn mn hmnv]
        | some mx => simp [hif, hmnv, hmn mn hmnv, hmxv, hmx mx hmxv]
  · intro m name v m2 outs e hval henh
    rw [enhanced_parameter_update] at henh
    cases hcp : create_version_checkpoint m none with
    | error e2 => rw [hcp] at henh; simp at henh
    | ok pr =>
      obtain ⟨m1, cid⟩ := pr
      simp only [hcp] at henh
      have hpig1 : m1.pig = m.pig := checkpoint_pig hcp
      rw [List.foldl_cons, List.foldl_nil] at henh
      rw [validate_congr_pig hpig1, hval] at henh
      simp only [Except.ok.injEq, Prod.mk.injEq] at henh
      refine ⟨?_, henh.2.symm⟩
      rw [← henh.1]
      exact hpig1
  · intro m name v m1 cid m3 aff pid hcp hval hupd hfind
    have hpig1 : m1.pig = m.pig := checkpoint_pig hcp
    constructor
    · rw [enhanced_parameter_update]
      simp only [hcp]
      rw [List.foldl_cons, List.foldl_nil]
      rw [validate_congr_pig hpig1, hval, hupd]
      simp
    · obtain ⟨pid2, hfind2, hm3, _, _⟩ := upv_ok hupd
      rw [hpig1, hfind] at hfind2
      injection hfind2 with hpe
      show m3.pig = _
      rw [hm3, hpig1, hpe]

/-- C4 counterexample: `update_parameter_value` performs no type or
bound validation — on the `[0,100]`-bounded numeric parameter it
accepts 999 and writes it, although `_validate_parameter_value` (which
it never consults) would report the bound violation. -/
theorem claim_C4_counterexample :
    valueAfterUpdate exMgr "cylinder_height" (.num 999) 0 =
      some (.num 999) ∧
    validate_parameter_value exMgr "cylinder_height" (.num 999) =
      .invalid (.outOfBoundsMax 100) ∧
    (update_parameter_value exMgr "cylinder_height" (.num 999)).isOk =
      true :=
  ⟨by decide, by decide, by decide⟩

theorem claim_C4_witness :
    (exMgr.pig.find_parameter_by_name "no_such_param" = none ∧
      update_parameter_value exMgr "no_such_param" (.num 1) =
        .error (.paramNotFound "no_such_param")) ∧
    (validate_parameter_value exMgr "cylinder_height" (.strV "oops") =
      .invalid (.typeMismatch .numeric)) ∧
    (validate_parameter_value exMgr "cylinder_height" (.num 200) =
      .invalid (.outOfBoundsMax 100)) ∧
    (validate_parameter_value exMgr "cylinder_height" (.num 999) =
        .invalid (.outOfBoundsMax 100) ∧
      enhanced_parameter_update exMgr [("cylinder_height", .num 999)] =
        .ok (enhancedManager exMgr [("cylinder_height", .num 999)],
          enhancedOutcomes exMgr [("cylinder_height", .num 999)]) ∧
      (enhancedManager exMgr [("cylinder_height", .num 999)]).pig =
        exMgr.pig ∧
      enhancedOutcomes exMgr [("cylinder_height", .num 999)] =
        [("cylinder_height",
          UpdateOutcome.failed (.outOfBoundsMax 100))]) ∧
    (enhanced_parameter_update exMgr [("cylinder_height", .num 50)] =
        .ok (add_version_to_history
            (upvManager (iterCheckpoint exMgr) "cylinder_height" (.num 50))
            "parameter_update",
          [("cylinder_height", UpdateOutcome.success (.num 50)
            (upvAffected (iterCheckpoint exMgr) "cylinder_height"
              (.num 50)))]) ∧
      (add_version_to_history
          (upvManager (iterCheckpoint exMgr) "cylinder_height" (.num 50))
          "parameter_update").pig =
        exMgr.pig.set_node_value 0 (.num 50)) := by
  refine ⟨⟨by decide, ?_⟩, ?_, ?_, ?_, ?_⟩
  · exact claim_C4_amended.1 exMgr "no_such_param" (.num 1) (by decide)
  · exact (claim_C4_amended.2.1 exMgr "cylinder_height" (.strV "oops") 0
      exParamNode (by decide) (by decide) (by decide)).1 (by decide)
  · exact (claim_C4_amended.2.1 exMgr "cylinder_height" (.num 200) 0
      exParamNode (by decide) (by decide) (by decide)).2.2.1 100
      (by decide) (by decide)
      (by
        intro mn hmn
        rw [show exParamNode.min_value = some 0 from rfl] at hmn
        injection hmn with hx
        rw [← hx]
        decide)
      (by decide)
  · refine ⟨by decide, by decide, ?_, ?_⟩
    · exact (claim_C4_amended.2.2.1 exMgr "cylinder_height" (.num 999)
        (enhancedManager exMgr [("cylinder_height", .num 999)])
        (enhancedOutcomes exMgr [("cylinder_height", .num 999)])
        (.outOfBoundsMax 100) (by decide) (by decide)).1
    · exact (claim_C4_amended.2.2.1 exMgr "cylinder_height" (.num 999)
        (enhancedManager exMgr [("cylinder_height", .num 999)])
        (enhancedOutcomes exMgr [("cylinder_height", .num 999)])
        (.outOfBoundsMax 100) (by decide) (by decide)).2
  · exact claim_C4_amended.2.2.2 exMgr "cylinder_height" (.num 50)
      (iterCheckpoint exMgr) 2
      (upvManager (iterCheckpoint exMgr) "cylinder_height" (.num 50))
      (upvAffected (iterCheckpoint exMgr) "cylinder_height" (.num 50)) 0
      (by decide) (by decide) (by decide) (by decide)

/-! ### C5: what `_restore_pig_from_checkpoint` rebuilds.  The restore
re-adds each checkpointed parameter through `add_parameter` and each
operation through `add_operation`, under fresh ids from the manager's
counter; the operation inputs still carry the old (stale) ids, so no
dependency edge is re-created. -/


theorem sassign_not_mem {α : Type} {d : List (String × α)} {k : String}
    {v : α} (h : k ∉ d.map (·.1)) : sassign d k v = d ++ [(k, v)] := by
  induction d with
  | nil => rfl
  | cons kv rest ih =>
    obtain ⟨k2, v2⟩ := kv
    simp only [List.map_cons, List.mem_cons] at h
    push_neg at h
    rw [sassign, if_neg (by simpa using Ne.symm h.1)]
    rw [ih h.2]
    simp

theorem dictKeys_append (a b : List (Nat × PIGNode)) :
    dictKeys (a ++ b) = dictKeys a ++ dictKeys b := by
  simp [dictKeys]

theorem restoreParams_spec (P : List (String × ParamInfo)) :
    ∀ (m : PIGManager), keysBelow m →
      (restoreParams m P).pig.nodes =
        m.pig.nodes ++ buildParams m.next_id P ∧
      (restoreParams m P).next_id = m.next_id + P.length ∧
      (restoreParams m P).version_history = m.version_history ∧
      keysBelow (restoreParams m P) := by
  induction P with
  | nil =>
    intro m hb
    exact ⟨by simp [restoreParams, buildParams], by simp [restoreParams],
      rfl, hb⟩
  | cons kv rest ih =>
    intro m hb
    obtain ⟨nm, info⟩ := kv
    have hstep := add_parameter_fresh hb nm info.value
      (stringToParamType info.type) info.description none none none
    set m2 := (add_parameter m nm info.value (stringToParamType info.type)
      info.description none none none).1 with hm2
    have hb2 : keysBelow m2 := by
      intro k hk
      rw [hstep.1, dictKeys_append] at hk
      rw [hstep.2.1]
      rcases List.mem_append.mp hk with hk | hk
      · have := hb k hk
        omega
      · simp [dictKeys] at hk
        omega
    have hrest := ih m2 hb2
    have hfold : restoreParams m ((nm, info) :: rest) = restoreParams m2 rest := by
      rw [restoreParams, restoreParams, List.foldl_cons]
    refine ⟨?_, ?_, ?_, ?_⟩
    · rw [hfold, hrest.1, hstep.1, hstep.2.1]
      rw [buildParams]
      simp [mkRestoredParamNode]
    · rw [hfold, hrest.2.1, hstep.2.1]
      simp
      omega
    · rw [hfold, hrest.2.2.1, hstep.2.2.1]
    · rw [hfold]
      exact hrest.2.2.2

theorem inputs_fold_id (inputs : List (String × Nat)) (id : Nat) :
    ∀ (g : ParametricIntentionGraph),
      (∀ kv ∈ inputs, dictLookup g.nodes kv.2 = none) →
      inputs.foldl
        (fun g kv =>
          if (dictLookup g.nodes kv.2).isSome then g.add_dependency id kv.2
          else g) g = g := by
  induction inputs with
  | nil => intro g _; rfl
  | cons kv rest ih =>
    intro g h
    rw [List.foldl_cons]
    rw [if_neg (by rw [h kv (by simp)]; simp)]
    exact ih g (fun kv2 hkv2 => h kv2 (by simp [hkv2]))

theorem add_operation_fresh {m : PIGManager} (hb : keysBelow m)
    (name ot code : String) (inputs : List (String × Nat))
    (d : Option String)
    (hin : ∀ kv ∈ inputs, kv.2 ∉ dictKeys m.pig.nodes ∧ kv.2 < m.next_id) :
    (add_operation m name ot code inputs d).1.pig.nodes =
      m.pig.nodes ++ [(m.next_id,
        { name := name, node_type := .operation, value := .noneV,
          description := d, operation_type := some ot,
          cadquery_code := some code, inputs := inputs })] ∧
    (add_operation m name ot code inputs d).1.next_id = m.next_id + 1 ∧
    (add_operation m name ot code inputs d).1.version_history =
      m.version_history := by
  have hfresh : m.next_id ∉ dictKeys m.pig.nodes := by
    intro hc
    exact absurd (hb m.next_id hc) (by omega)
  have hg1 : (m.pig.add_node m.next_id
      { name := name, node_type := .operation, value := PyVal.noneV,
        description := d, operation_type := some ot,
        cadquery_code := some code, inputs := inputs }).nodes =
      m.pig.nodes ++ [(m.next_id,
        { name := name, node_type := .operation, value := .noneV,
          description := d, operation_type := some ot,
          cadquery_code := some code, inputs := inputs })] := by
    rw [add_node_nodes, dictAssign_not_mem hfresh]
  have hnone : ∀ kv ∈ inputs, dictLookup (m.pig.add_node m.next_id
      { name := name, node_type := .operation, value := PyVal.noneV,
        description := d, operation_type := some ot,
        cadquery_code := some code, inputs := inputs }).nodes kv.2 = none := by
    intro kv hkv
    apply dictLookup_none_of_not_mem
    rw [hg1, dictKeys_append]
    intro hc
    rcases List.mem_append.mp hc with hc | hc
    · exact (hin kv hkv).1 hc
    · simp [dictKeys] at hc
      have := (hin kv hkv).2
      omega
  have hfold := inputs_fold_id inputs m.next_id (m.pig.add_node m.next_id
      { name := name, node_type := .operation, value := PyVal.noneV,
        description := d, operation_type := some ot,
        cadquery_code := some code, inputs := inputs }) hnone
  refine ⟨?_, rfl, rfl⟩
  rw [add_operation]
  dsimp only
  rw [hfold, hg1]

theorem restoreOps_spec (OPS : List OpInfo) :
    ∀ (m : PIGManager), keysBelow m →
      (∀ op ∈ OPS, ∀ kv ∈ op.inputs,
        kv.2 ∉ dictKeys m.pig.nodes ∧ kv.2 < m.next_id) →
      (restoreOps m OPS).pig.nodes = m.pig.nodes ++ buildOps m.next_id OPS ∧
      (restoreOps m OPS).next_id = m.next_id + OPS.length ∧
      (restoreOps m OPS).version_history = m.version_history := by
  induction OPS with
  | nil =>
    intro m hb _
    exact ⟨by simp [restoreOps, buildOps], by simp [restoreOps], rfl⟩
  | cons op rest ih =>
    intro m hb hin
    have hstep := add_operation_fresh hb op.name op.type op.code op.inputs
      op.description (hin op (by simp))
    set m2 := (add_operation m op.name op.type op.code op.inputs
      op.description).1 with hm2
    have hb2 : keysBelow m2 := by
      intro k hk
      rw [hstep.1, dictKeys_append] at hk
      rw [hstep.2.1]
      rcases List.mem_append.mp hk with hk | hk
      · have := hb k hk
        omega
      · simp [dictKeys] at hk
        omega
    have hin2 : ∀ op2 ∈ rest, ∀ kv ∈ op2.inputs,
        kv.2 ∉ dictKeys m2.pig.nodes ∧ kv.2 < m2.next_id := by
      intro op2 hop2 kv hkv
      have h1 := hin op2 (by simp [hop2]) kv hkv
      constructor
      · rw [hstep.1, dictKeys_append]
        intro hc
        rcases List.mem_append.mp hc with hc | hc
        · exact h1.1 hc
        · simp [dictKeys] at hc
          omega
      · rw [hstep.2.1]
        omega
    have hrest := ih m2 hb2 hin2
    have hfold : restoreOps m (op :: rest) = restoreOps m2 rest := by
      rw [restoreOps, restoreOps, List.foldl_cons]
    refine ⟨?_, ?_, ?_⟩
    · rw [hfold, hrest.1, hstep.1, hstep.2.1]
      rw [buildOps]
      simp [mkRestoredOpNode]
    · rw [hfold, hrest.2.1, hstep.2.1]
      simp
      omega
    · rw [hfold, hrest.2.2, hstep.2.2]

theorem buildParams_keys (P : List (String × ParamInfo)) :
    ∀ b, dictKeys (buildParams b P) = List.range' b P.length := by
  induction P with
  | nil => intro b; rfl
  | cons kv rest ih =>
    intro b
    obtain ⟨nm, info⟩ := kv
    rw [buildParams]
    show b :: dictKeys (buildParams (b + 1) rest) = _
    rw [ih (b + 1)]
    rfl

theorem buildOps_keys (OPS : List OpInfo) :
    ∀ b, dictKeys (buildOps b OPS) = List.range' b OPS.length := by
  induction OPS with
  | nil => intro b; rfl
  | cons op rest ih =>
    intro b
    rw [buildOps]
    show b :: dictKeys (buildOps (b + 1) rest) = _
    rw [ih (b + 1)]
    rfl

theorem buildParams_nodes (P : List (String × ParamInfo)) :
    ∀ b, ∀ kn ∈ buildParams b P,
      kn.2.node_type = NodeType.parameter ∧ kn.2.dependencies = [] := by
  induction P with
  | nil => intro b kn hkn; simp [buildParams] at hkn
  | cons kv rest ih =>
    intro b kn hkn
    obtain ⟨nm, info⟩ := kv
    rw [buildParams] at hkn
    rcases List.mem_cons.mp hkn with rfl | hkn
    · exact ⟨rfl, rfl⟩
    · exact ih (b + 1) kn hkn

theorem buildOps_nodes (OPS : List OpInfo) :
    ∀ b, ∀ kn ∈ buildOps b OPS,
      kn.2.node_type = NodeType.operation ∧ kn.2.dependencies = [] := by
  induction OPS with
  | nil => intro b kn hkn; simp [buildOps] at hkn
  | cons op rest ih =>
    intro b kn hkn
    rw [buildOps] at hkn
    rcases List.mem_cons.mp hkn with rfl | hkn
    · exact ⟨rfl, rfl⟩
    · exact ih (b + 1) kn hkn

theorem paramPairs_append (A B : List (Nat × PIGNode)) :
    paramPairs (A ++ B) = paramPairs A ++ paramPairs B := by
  induction A with
  | nil => rfl
  | cons kn rest ih =>
    obtain ⟨k, n⟩ := kn
    by_cases h : n.node_type = NodeType.parameter
    · rw [List.cons_append, paramPairs, paramPairs]
      rw [if_pos h, if_pos h, ih]
      rfl
    · rw [List.cons_append, paramPairs, paramPairs]
      rw [if_neg h, if_neg h, ih]

theorem paramPairs_buildOps (OPS : List OpInfo) :
    ∀ b, paramPairs (buildOps b OPS) = [] := by
  induction OPS with
  | nil => intro b; rfl
  | cons op rest ih =>
    intro b
    rw [buildOps, paramPairs, if_neg (by simp [mkRestoredOpNode])]
    exact ih (b + 1)

theorem paramPairs_buildParams (P : List (String × ParamInfo)) :
    ∀ b,
      (paramPairs (buildParams b P)).map
          (fun kv => (kv.1, kv.2.value, kv.2.description)) =
        P.map (fun kv => (kv.1, kv.2.value, kv.2.description)) ∧
      (paramPairs (buildParams b P)).map (·.1) = P.map (·.1) := by
  induction P with
  | nil => intro b; exact ⟨rfl, rfl⟩
  | cons kv rest ih =>
    intro b
    obtain ⟨nm, info⟩ := kv
    rw [buildParams, paramPairs, if_pos (by simp [mkRestoredParamNode])]
    constructor
    · rw [List.map_cons, (ih (b + 1)).1]
      rfl
    · rw [List.map_cons, (ih (b + 1)).2]
      rfl

theorem extractGo_acc (L : List (Nat × PIGNode)) :
    ∀ acc, ((paramPairs L).map (·.1)).Nodup →
      (∀ pr ∈ paramPairs L, pr.1 ∉ acc.map (·.1)) →
      extractParametersGo L acc = acc ++ paramPairs L := by
  induction L with
  | nil => intro acc _ _; simp [extractParametersGo, paramPairs]
  | cons kn rest ih =>
    intro acc hnn hdis
    obtain ⟨k, n⟩ := kn
    by_cases h : n.node_type = NodeType.parameter
    · rw [extractParametersGo, if_pos h, paramPairs, if_pos h]
      rw [paramPairs, if_pos h] at hnn hdis
      simp only [List.map_cons, List.nodup_cons] at hnn
      have hknacc : n.name ∉ acc.map (·.1) := hdis _ (List.mem_cons_self _ _)
      rw [sassign_not_mem hknacc]
      rw [ih (acc ++ [(n.name, _)]) hnn.2 ?_]
      · simp
      · intro pr hpr
        simp only [List.map_append, List.map_cons, List.map_nil]
        intro hc
        rcases List.mem_append.mp hc with hc | hc
        · exact hdis pr (List.mem_cons_of_mem _ hpr) hc
        · simp at hc
          exact hnn.1 (hc ▸ List.mem_map_of_mem (·.1) hpr)
    · rw [extractParametersGo, if_neg h, paramPairs, if_neg h]
      rw [paramPairs, if_neg h] at hnn hdis
      exact ih acc hnn hdis

theorem edgeList_append (A B : List (Nat × PIGNode)) :
    edgeList (A ++ B) = edgeList A ++ edgeList B := by
  induction A with
  | nil => rfl
  | cons kn rest ih =>
    obtain ⟨k, n⟩ := kn
    rw [List.cons_append, edgeList, edgeList, ih]
    simp

theorem edgeList_no_deps (L : List (Nat × PIGNode)) :
    (∀ kn ∈ L, kn.2.dependencies = []) → edgeList L = [] := by
  induction L with
  | nil => intro _; rfl
  | cons kn rest ih =>
    intro h
    obtain ⟨k, n⟩ := kn
    rw [edgeList]
    rw [show n.dependencies = [] from h (k, n) (by simp)]
    exact ih (fun kn2 hkn2 => h kn2 (by simp [hkn2]))

theorem visit_nodeps (g : ParametricIntentionGraph)
    (hnd : ∀ kn ∈ g.nodes, kn.2.dependencies = []) :
    ∀ (stack : List Nat) (fuel : Nat) (order : List Nat),
      stack.length ≤ fuel →
      (∀ id ∈ stack, id ∈ dictKeys g.nodes) →
      (∀ id ∈ stack, id ∉ order) →
      stack.Nodup →
      visit g fuel [] stack order = .ok (order ++ stack) := by
  intro stack
  induction stack with
  | nil => intro fuel order _ _ _ _; simp [visit_nil0]
  | cons nid rest ih =>
    intro fuel order hf hkeys hnotin hnodup
    cases fuel with
    | zero => simp at hf
    | succ fuel =>
      have hk : nid ∈ dictKeys g.nodes := hkeys nid (by simp)
      obtain ⟨node, hlk⟩ : ∃ node, dictLookup g.nodes nid = some node := by
        have hs := dictLookup_isSome_iff.mpr hk
        cases hcase : dictLookup g.nodes nid with
        | none => rw [hcase] at hs; simp at hs
        | some node => exact ⟨node, rfl⟩
      have hdeps : node.dependencies = [] :=
        hnd (nid, node) (dictLookup_mem hlk)
      have hstep := @visit_descend_ok g fuel [] rest order order nid node
        (List.not_mem_nil nid) (hnotin nid (by simp)) hlk
        (by rw [hdeps]; exact visit_nil0 g fuel [nid] order)
      rw [hstep]
      rw [List.nodup_cons] at hnodup
      rw [ih fuel (order ++ [nid])
        (by simp only [List.length_cons] at hf; omega)
        (fun id hid => hkeys id (by simp [hid]))
        (fun id hid => by
          intro hc
          rcases List.mem_append.mp hc with hc | hc
          · exact hnotin id (by simp [hid]) hc
          · simp at hc
            exact hnodup.1 (hc ▸ hid))
        hnodup.2]
      simp

theorem geo_nodeps (g : ParametricIntentionGraph)
    (hnd : ∀ kn ∈ g.nodes, kn.2.dependencies = [])
    (hnodup : (dictKeys g.nodes).Nodup) :
    g.get_execution_order = .ok (dictKeys g.nodes) := by
  rw [get_execution_order]
  have hlen : (dictKeys g.nodes).length ≤ execFuel g := by
    rw [dictKeys_length, execFuel]
    have h2 : ∀ a b : Nat, a ≤ a + b + 1 := by intro a b; omega
    exact h2 _ _
  have hv := visit_nodeps g hnd (dictKeys g.nodes) (execFuel g) [] hlen
    (fun id h => h) (fun id _ => List.not_mem_nil id) hnodup
  simpa using hv

theorem filterMap_keys (f : Nat → PIGNode → Option OpInfo) :
    ∀ (L : List (Nat × PIGNode)), (dictKeys L).Nodup →
      (dictKeys L).filterMap (fun id =>
        match dictLookup L id with
        | some node => f id node
        | none => none) =
      L.filterMap (fun kn => f kn.1 kn.2) := by
  intro L
  induction L with
  | nil => intro _; rfl
  | cons kn rest ih =>
    intro hnd
    obtain ⟨k, n⟩ := kn
    have hk : dictKeys ((k, n) :: rest) = k :: dictKeys rest := rfl
    rw [hk] at hnd ⊢
    rw [List.nodup_cons] at hnd
    have hcongr : (dictKeys rest).filterMap (fun id =>
        match dictLookup ((k, n) :: rest) id with
        | some node => f id node
        | none => none) =
      (dictKeys rest).filterMap (fun id =>
        match dictLookup rest id with
        | some node => f id node
        | none => none) :=
      List.filterMap_congr (fun id hid => by
        have hne : ¬ (k = id) := fun he => hnd.1 (he ▸ hid)
        simp [dictLookup, hne])
    rw [List.filterMap_cons, List.filterMap_cons]
    dsimp only
    rw [show dictLookup ((k, n) :: rest) k = some n by simp [dictLookup]]
    rw [hcongr, ih hnd.2]

theorem buildOps_ops (OPS : List OpInfo) : ∀ b,
    ((buildOps b OPS).filterMap (fun kn =>
      (if kn.2.node_type = NodeType.operation then
        some { id := kn.1, name := kn.2.name,
               type := kn.2.operation_type.getD "unknown",
               description := kn.2.description, inputs := kn.2.inputs,
               code := kn.2.cadquery_code.getD "" }
      else none : Option OpInfo))).map
        (fun op => (op.name, op.type, op.description, op.inputs, op.code)) =
    OPS.map
      (fun op => (op.name, op.type, op.description, op.inputs, op.code)) := by
  induction OPS with
  | nil => intro b; rfl
  | cons op rest ih =>
    intro b
    rw [buildOps, List.filterMap_cons]
    simp only [mkRestoredOpNode, if_true, Option.getD_some]
    rw [List.map_cons, ih (b + 1)]
    simp

theorem restored_keys (P : List (String × ParamInfo)) (OPS : List OpInfo)
    (b : Nat) :
    dictKeys (buildParams b P ++ buildOps (b + P.length) OPS) =
      List.range' b (OPS.length + P.length) := by
  rw [dictKeys_append, buildParams_keys, buildOps_keys,
    ← List.range'_append_1]

theorem restore_spec (m0 : PIGManager) (cp : CheckpointData)
    (hnames : (cp.parameters.map (·.1)).Nodup)
    (hstale : ∀ op ∈ cp.operations, ∀ kv ∈ op.inputs, kv.2 < m0.next_id) :
    ∃ s : PIGSnapshot,
      pigSnapshot (restore_pig_from_checkpoint m0 cp).pig = .ok s ∧
      s.parameters.map (fun kv => (kv.1, kv.2.value, kv.2.description)) =
        cp.parameters.map (fun kv => (kv.1, kv.2.value, kv.2.description)) ∧
      s.operations.map
          (fun op => (op.name, op.type, op.description, op.inputs, op.code)) =
        cp.operations.map
          (fun op => (op.name, op.type, op.description, op.inputs, op.code)) ∧
      s.edges = [] ∧
      ∀ k ∈ dictKeys (restore_pig_from_checkpoint m0 cp).pig.nodes,
        m0.next_id ≤ k := by
  have hbelow : keysBelow { m0 with pig := {} } := by
    intro k hk; simp [dictKeys] at hk
  have hP := restoreParams_spec cp.parameters ({ m0 with pig := {} }) hbelow
  set m1 := restoreParams { m0 with pig := {} } cp.parameters with hm1
  have hnodes1 : m1.pig.nodes = buildParams m0.next_id cp.parameters := by
    have h := hP.1; simpa using h
  have hnid1 : m1.next_id = m0.next_id + cp.parameters.length := hP.2.1
  have hin : ∀ op ∈ cp.operations, ∀ kv ∈ op.inputs,
      kv.2 ∉ dictKeys m1.pig.nodes ∧ kv.2 < m1.next_id := by
    intro op hop kv hkv
    have hlt := hstale op hop kv hkv
    constructor
    · rw [hnodes1, buildParams_keys]
      intro hc
      have h2 := (List.mem_range'_1.mp hc).1
      omega
    · rw [hnid1]; omega
  have hO := restoreOps_spec cp.operations m1 hP.2.2.2 hin
  have hNN : (restore_pig_from_checkpoint m0 cp).pig.nodes =
      buildParams m0.next_id cp.parameters ++
        buildOps (m0.next_id + cp.parameters.length) cp.operations := by
    show (restoreOps m1 cp.operations).pig.nodes = _
    rw [hO.1, hnodes1, hnid1]
  set NN := buildParams m0.next_id cp.parameters ++
      buildOps (m0.next_id + cp.parameters.length) cp.operations with hNNdef
  have hkeys : dictKeys NN =
      List.range' m0.next_id (cp.operations.length + cp.parameters.length) :=
    restored_keys cp.parameters cp.operations m0.next_id
  have hknd : (dictKeys NN).Nodup := by
    rw [hkeys]; exact List.nodup_range' _ _ 1 Nat.one_pos
  have hdeps : ∀ kn ∈ NN, kn.2.dependencies = [] := by
    intro kn hkn
    rcases List.mem_append.mp hkn with hkn | hkn
    · exact (buildParams_nodes cp.parameters m0.next_id kn hkn).2
    · exact (buildOps_nodes cp.operations (m0.next_id + cp.parameters.length)
        kn hkn).2
  have hpp : paramPairs NN = paramPairs (buildParams m0.next_id cp.parameters) := by
    rw [hNNdef, paramPairs_append, paramPairs_buildOps]
    simp
  have hppn : ((paramPairs NN).map (·.1)).Nodup := by
    rw [hpp, (paramPairs_buildParams cp.parameters m0.next_id).2]
    exact hnames
  set gR := (restore_pig_from_checkpoint m0 cp).pig with hgR
  have hgnodes : gR.nodes = NN := hNN
  have hgeo : gR.get_execution_order = .ok (dictKeys gR.nodes) :=
    geo_nodeps gR (by rw [hgnodes]; exact hdeps) (by rw [hgnodes]; exact hknd)
  have hEP : extract_parameters gR =
      paramPairs (buildParams m0.next_id cp.parameters) := by
    unfold extract_parameters
    rw [hgnodes, extractGo_acc NN [] hppn (by intro pr hpr; simp)]
    rw [hpp]
    simp
  have hEO : extract_operations gR = .ok (NN.filterMap (fun kn =>
      (if kn.2.node_type = NodeType.operation then
        some { id := kn.1, name := kn.2.name,
               type := kn.2.operation_type.getD "unknown",
               description := kn.2.description, inputs := kn.2.inputs,
               code := kn.2.cadquery_code.getD "" }
      else none : Option OpInfo))) := by
    unfold extract_operations
    rw [hgeo]
    dsimp only
    rw [hgnodes]
    exact congrArg Except.ok (filterMap_keys _ NN hknd)
  refine ⟨⟨paramPairs (buildParams m0.next_id cp.parameters),
      NN.filterMap (fun kn =>
        (if kn.2.node_type = NodeType.operation then
          some { id := kn.1, name := kn.2.name,
                 type := kn.2.operation_type.getD "unknown",
                 description := kn.2.description, inputs := kn.2.inputs,
                 code := kn.2.cadquery_code.getD "" }
        else none : Option OpInfo)), edgeList NN⟩, ?_, ?_, ?_, ?_, ?_⟩
  · unfold pigSnapshot
    rw [hEO]
    dsimp only
    rw [hEP, hgnodes]
  · exact (paramPairs_buildParams cp.parameters m0.next_id).1
  · show (List.filterMap _ NN).map _ = _
    rw [hNNdef, List.filterMap_append]
    have hA : (buildParams m0.next_id cp.parameters).filterMap (fun kn =>
        (if kn.2.node_type = NodeType.operation then
          some { id := kn.1, name := kn.2.name,
                 type := kn.2.operation_type.getD "unknown",
                 description := kn.2.description, inputs := kn.2.inputs,
                 code := kn.2.cadquery_code.getD "" }
        else none : Option OpInfo)) = [] := by
      rw [List.filterMap_eq_nil_iff]
      intro kn hkn
      rw [if_neg]
      rw [(buildParams_nodes cp.parameters m0.next_id kn hkn).1]
      simp
    rw [hA, List.nil_append]
    exact buildOps_ops cp.operations (m0.next_id + cp.parameters.length)
  · show edgeList NN = []
    rw [hNNdef, edgeList_append]
    rw [edgeList_no_deps _ (fun kn hkn =>
      (buildParams_nodes cp.parameters m0.next_id kn hkn).2)]
    rw [edgeList_no_deps _ (fun kn hkn =>
      (buildOps_nodes cp.operations (m0.next_id + cp.parameters.length)
        kn hkn).2)]
    rfl
  · intro k hk
    rw [hNN, hkeys] at hk
    exact (List.mem_range'_1.mp hk).1

/-- C5: the claimed round-trip `snapshot(restore(s)) == s` fails on the
concrete cylinder manager (one bounded parameter with units feeding one
operation): `create_version_checkpoint` followed by
`rollback_to_version` to that checkpoint yields a graph whose snapshot
differs from the checkpoint-time snapshot — the restore assigns fresh
node ids, drops units and bounds, and re-creates no dependency edge
(the checkpointed operation inputs name the old, now-stale ids). -/
theorem claim_C5_counterexample :
    checkpointRollbackRoundTrips exMgr = false := by decide

/-- C5 (amended): what `_restore_pig_from_checkpoint` actually
guarantees.  For every manager and every checkpoint whose parameter
names are distinct and whose operation inputs name only pre-restore ids
(as holds for any checkpoint the same manager took), the restored graph
snapshots successfully, preserving each parameter's name, value and
description and each operation's name, type, description, inputs and
code, in order — but every restored node id is fresh (at least the
manager's id counter) and the restored dependency-edge set is empty, so
node ids, units, bounds and edges are not restored and the literal
round-trip `snapshot(restore(s)) == s` of the spec fails in general. -/
theorem claim_C5_amended (m0 : PIGManager) (cp : CheckpointData)
    (hnames : (cp.parameters.map (·.1)).Nodup)
    (hstale : ∀ op ∈ cp.operations, ∀ kv ∈ op.inputs, kv.2 < m0.next_id) :
    ∃ s : PIGSnapshot,
      pigSnapshot (restore_pig_from_checkpoint m0 cp).pig = .ok s ∧
      s.parameters.map (fun kv => (kv.1, kv.2.value, kv.2.description)) =
        cp.parameters.map (fun kv => (kv.1, kv.2.value, kv.2.description)) ∧
      s.operations.map
          (fun op => (op.name, op.type, op.description, op.inputs, op.code)) =
        cp.operations.map
          (fun op => (op.name, op.type, op.description, op.inputs, op.code)) ∧
      s.edges = [] ∧
      ∀ k ∈ dictKeys (restore_pig_from_checkpoint m0 cp).pig.nodes,
        m0.next_id ≤ k :=
  restore_spec m0 cp hnames hstale

/-- Witness for the amended C5 theorem: both hypotheses hold for the
concrete checkpoint `exCp` of the cylinder manager `exMgr`, and the
theorem applies to them. -/
theorem claim_C5_witness :
    (((exCp.parameters.map (·.1)).Nodup ∧
        ∀ op ∈ exCp.operations, ∀ kv ∈ op.inputs, kv.2 < exMgr.next_id) ∧
      ∃ s : PIGSnapshot,
        pigSnapshot (restore_pig_from_checkpoint exMgr exCp).pig = .ok s ∧
        s.parameters.map (fun kv => (kv.1, kv.2.value, kv.2.description)) =
          exCp.parameters.map
            (fun kv => (kv.1, kv.2.value, kv.2.description)) ∧
        s.operations.map
            (fun op =>
              (op.name, op.type, op.description, op.inputs, op.code)) =
          exCp.operations.map
            (fun op =>
              (op.name, op.type, op.description, op.inputs, op.code)) ∧
        s.edges = [] ∧
        ∀ k ∈ dictKeys (restore_pig_from_checkpoint exMgr exCp).pig.nodes,
          exMgr.next_id ≤ k) :=
  ⟨⟨by decide, by decide⟩,
    claim_C5_amended exMgr exCp (by decide) (by decide)⟩

/-- C7: the timeout path does kill the subprocess, but the resulting
status is "error", not "timeout": at the default 30 s limit the
`asyncio.TimeoutError` branch of `_execute_in_process` returns a dict
with status "error", and `execute_plan` maps it to an
`ExecutionResult` of status "error". -/
theorem claim_C7_counterexample :
    (execute_in_process 30 ProcOutcome.timedOut).1 = true ∧
    (execute_plan 30 ProcOutcome.timedOut).2.status = "error" ∧
    ¬ (execute_plan 30 ProcOutcome.timedOut).2.status = "timeout" := by
  refine ⟨rfl, rfl, ?_⟩
  decide

/-- C7 (amended): when a sandboxed execution exceeds
`max_execution_time`, the subprocess is killed, and the
`ExecutionResult` carries status "error" (with the time-limit message
and a "TimeoutError" traceback) — the declared status "timeout" is
produced on no path of `execute_plan` at all. -/
theorem claim_C7_amended (t : Nat) :
    (execute_in_process t ProcOutcome.timedOut).1 = true ∧
    (execute_plan t ProcOutcome.timedOut).2.status = "error" ∧
    (execute_plan t ProcOutcome.timedOut).2.error_message =
      some ("Execução excedeu tempo limite de " ++ toString t ++ "s") ∧
    (execute_plan t ProcOutcome.timedOut).2.error_traceback =
      some "TimeoutError" ∧
    ∀ o : ProcOutcome, (execute_plan t o).2.status ≠ "timeout" := by
  refine ⟨rfl, rfl, ?_, ?_, ?_⟩
  · simp [execute_plan, execute_in_process]
  · simp [execute_plan, execute_in_process]
  · intro o
    cases o with
    | completed out err =>
      by_cases hc : pyContains "EXECUTION_SUCCESS" out = true
      · simp [execute_plan, execute_in_process, hc]
      · simp [execute_plan, execute_in_process, hc]
    | timedOut => simp [execute_plan, execute_in_process]

/-- Witness for the amended C7 theorem at the default 30-second
limit. -/
theorem claim_C7_witness :
    (execute_in_process 30 ProcOutcome.timedOut).1 = true ∧
    (execute_plan 30 ProcOutcome.timedOut).2.status = "error" ∧
    (execute_plan 30 ProcOutcome.timedOut).2.error_message =
      some ("Execução excedeu tempo limite de " ++ toString 30 ++ "s") ∧
    (execute_plan 30 ProcOutcome.timedOut).2.error_traceback =
      some "TimeoutError" ∧
    ∀ o : ProcOutcome, (execute_plan 30 o).2.status ≠ "timeout" :=
  claim_C7_amended 30

/-- C8: the English utterance "change cylinder_height to 40" is NOT
classified as Modification — none of the classifier's (Portuguese)
keyword patterns matches it, so it falls to the default
NEW_INSTRUCTION — and the extractor's three patterns (Portuguese
verbs, `=`, faça/torne) all fail on it, so even with a
`cylinder_height` parameter in the PIG and a succeeding executor the
turn is never resolved on the fast parameter-update path: the LLM is
consulted. -/
theorem claim_C8_counterexample :
    resolve_intention_type "change cylinder_height to 40" =
      IntentionType.new_instruction ∧
    extract_parameter_modification "change cylinder_height to 40" =
      none ∧
    process_user_input exMgr.pig true "change cylinder_height to 40" =
      none := by
  refine ⟨by decide, by decide, by decide⟩

/-- C8 (amended): the fast path the spec describes exists, but for the
Portuguese phrasing: "mude cylinder_height para 40" is classified as
Modification, the extractor yields ("cylinder_height", 40.0), and on
the cylinder manager's graph (parameter id 0 feeding operation id 1),
with a succeeding executor, the turn is resolved on the fast
parameter-update path — affected list [1] — with no LLM call. -/
theorem claim_C8_amended :
    resolve_intention_type "mude cylinder_height para 40" =
      IntentionType.modification ∧
    extract_parameter_modification "mude cylinder_height para 40" =
      some ("cylinder_height", 40) ∧
    process_user_input exMgr.pig true "mude cylinder_height para 40" =
      some ("cylinder_height", 40, [1]) := by
  refine ⟨by decide, by decide, by decide⟩

/-! ### C9: the retry loop surfaces the outcome of its final executor
run, after at most three runs. -/

theorem lastRun_ne_fell {P : Type} {execO : Nat → P → ExecAttempt}
    {corrO : Nat → P → ExecutionResult → Option P} {a : Nat} {p : P}
    {r : RetryResult P} (hm : lastRunMatches execO corrO a p r) :
    r ≠ RetryResult.fellThrough := by
  unfold lastRunMatches at hm
  cases hx : execO a p with
  | ok res =>
    simp only [hx] at hm
    rw [hm.1]
    intro hc
    cases hc
  | raised msg =>
    simp only [hx] at hm
    rw [hm.1]
    intro hc
    cases hc

theorem retryStep_inl {P : Type} {execO : Nat → P → ExecAttempt}
    {corrO : Nat → P → ExecutionResult → Option P}
    {attempt : Nat} {plan : P} {r : RetryResult P}
    (hatt : attempt ≤ max_retries)
    (h : retryStep execO corrO attempt plan = Sum.inl r) :
    lastRunMatches execO corrO attempt plan r := by
  unfold lastRunMatches
  cases hx : execO attempt plan with
  | ok res =>
    rw [retryStep, hx] at h
    dsimp only at h ⊢
    by_cases hs : res.status = "success"
    · rw [if_pos hs] at h
      injection h with h
      refine ⟨h.symm, ?_⟩
      intro hns
      exact absurd hs hns
    · rw [if_neg hs] at h
      by_cases hlt : attempt < max_retries
      · rw [if_pos hlt] at h
        cases hc : corrO attempt plan res with
        | some p2 =>
          rw [hc] at h
          cases h
        | none =>
          rw [hc] at h
          injection h with h
          exact ⟨h.symm, fun _ => Or.inr rfl⟩
      · rw [if_neg hlt] at h
        injection h with h
        exact ⟨h.symm, fun _ => Or.inl (by omega)⟩
  | raised msg =>
    rw [retryStep, hx] at h
    dsimp only at h ⊢
    by_cases he : attempt = max_retries
    · rw [if_pos he] at h
      injection h with h
      exact ⟨h.symm, he⟩
    · rw [if_neg he] at h
      cases h

theorem retryStep_last {P : Type} {execO : Nat → P → ExecAttempt}
    {corrO : Nat → P → ExecutionResult → Option P} {plan : P} {p2 : P}
    (h : retryStep execO corrO max_retries plan = Sum.inr p2) : False := by
  cases hx : execO max_retries plan with
  | ok res =>
    rw [retryStep, hx] at h
    dsimp only at h
    by_cases hs : res.status = "success"
    · rw [if_pos hs] at h; cases h
    · rw [if_neg hs, if_neg (lt_irrefl max_retries)] at h
      cases h
  | raised msg =>
    rw [retryStep, hx] at h
    dsimp only at h
    rw [if_pos rfl] at h
    cases h

/-- C9: for every executor and planner behaviour and every starting
plan, the retry loop runs the executor between one and
`max_retries + 1 = 3` times, always returns (the fallen-through loop
is unreachable), and the value surfaced to the caller is exactly the
outcome of the final executor run — the result object itself, or the
error dict of its exception; a non-success result is only surfaced
with the retries exhausted or with the planner producing no corrected
plan, and an exception only with the retries exhausted. -/
theorem claim_C9 {P : Type} (execO : Nat → P → ExecAttempt)
    (corrO : Nat → P → ExecutionResult → Option P) (plan : P) :
    1 ≤ (execute_plan_with_retry execO corrO plan).2 ∧
    (execute_plan_with_retry execO corrO plan).2 ≤ max_retries + 1 ∧
    (execute_plan_with_retry execO corrO plan).1 ≠
      RetryResult.fellThrough ∧
    ∃ p : P, lastRunMatches execO corrO
      ((execute_plan_with_retry execO corrO plan).2 - 1) p
      (execute_plan_with_retry execO corrO plan).1 := by
  cases h0 : retryStep execO corrO 0 plan with
  | inl r =>
    have he : execute_plan_with_retry execO corrO plan = (r, 1) := by
      unfold execute_plan_with_retry
      rw [h0]
    have hm := retryStep_inl (by decide) h0
    rw [he]
    exact ⟨Nat.le_refl 1,
      Nat.le_succ_of_le (Nat.le_succ_of_le (Nat.le_refl 1)),
      lastRun_ne_fell hm, plan, hm⟩
  | inr p1 =>
    cases h1 : retryStep execO corrO 1 p1 with
    | inl r =>
      have he : execute_plan_with_retry execO corrO plan = (r, 2) := by
        unfold execute_plan_with_retry
        rw [h0]
        dsimp only
        rw [h1]
      have hm := retryStep_inl (by decide) h1
      rw [he]
      exact ⟨Nat.le_succ_of_le (Nat.le_refl 1),
        Nat.le_succ_of_le (Nat.le_refl 2),
        lastRun_ne_fell hm, p1, hm⟩
    | inr p2 =>
      cases h2 : retryStep execO corrO 2 p2 with
      | inl r =>
        have he : execute_plan_with_retry execO corrO plan = (r, 3) := by
          unfold execute_plan_with_retry
          rw [h0]
          dsimp only
          rw [h1]
          dsimp only
          rw [h2]
        have hm := retryStep_inl (by decide) h2
        rw [he]
        exact ⟨Nat.le_succ_of_le (Nat.le_succ_of_le (Nat.le_refl 1)),
          Nat.le_refl 3,
          lastRun_ne_fell hm, p2, hm⟩
      | inr p3 => exact absurd h2 retryStep_last

/-! ### C10: every string `_clean_json_response` returns is valid
JSON. -/

theorem braced_pyStrip {c : String} (h : bracedStr c = true) :
    pyStrip c = c := by
  unfold bracedStr at h
  rw [Bool.and_eq_true] at h
  have h1 := of_decide_eq_true h.1
  have h2 := of_decide_eq_true h.2
  unfold pyStrip
  cases hd : c.data with
  | nil => rw [hd] at h1; simp at h1
  | cons a t =>
    rw [hd] at h1 h2
    simp only [List.head?] at h1
    injection h1 with h1
    subst h1
    have hrev : (('\x7b' :: t).reverse).head? = some '\x7d' := by
      rw [List.head?_reverse]
      exact h2
    rw [List.dropWhile_cons, if_neg (by decide)]
    cases hr : ('\x7b' :: t).reverse with
    | nil => simp at hr
    | cons b rb =>
      rw [hr] at hrev
      simp only [List.head?] at hrev
      injection hrev with hrev
      subst hrev
      rw [List.dropWhile_cons, if_neg (by decide)]
      rw [← hr, List.reverse_reverse, ← hd]

theorem tryCands_valid (cands : List (Option String))
    (hbr : candsBraced cands = true) :
    ∀ s, tryCands cands = some s → jsonValid s = true := by
  induction cands with
  | nil => intro s h; simp [tryCands] at h
  | cons oc rest ih =>
    rw [candsBraced, List.all_cons, Bool.and_eq_true] at hbr
    intro s h
    cases oc with
    | none =>
      rw [tryCands] at h
      exact ih hbr.2 s h
    | some c =>
      rw [tryCands] at h
      by_cases hv : jsonValid c = true
      · rw [if_pos hv] at h
        injection h with h
        rw [← h, braced_pyStrip hbr.1]
        exact hv
      · rw [if_neg hv] at h
        exact ih hbr.2 s h

theorem tryLines_valid (L : List String) :
    ∀ s, tryLines L = some s → jsonValid s = true := by
  induction L with
  | nil => intro s h; simp [tryLines] at h
  | cons l rest ih =>
    intro s h
    rw [tryLines] at h
    by_cases hh : (pyStrip l).data.head? = some '\x7b'
    · rw [if_pos hh] at h
      by_cases hc : extract_balanced_json
          (String.intercalate "\n" (l :: rest)) ≠ "" ∧
          jsonValid (extract_balanced_json
            (String.intercalate "\n" (l :: rest))) = true
      · rw [if_pos hc] at h
        injection h with h
        rw [← h]
        exact hc.2
      · rw [if_neg hc] at h
        exact ih s h
    · rw [if_neg hh] at h
      exact ih s h

set_option maxRecDepth 16384 in
/-- C10: `_clean_json_response` is total and every string it returns
is a valid JSON document — the empty response maps to "\x7b\x7d",
each salvage strategy returns its candidate only after `json.loads`
validates it (the regex candidates are brace-delimited by their
patterns' shape, so their final `.strip()` is the identity), and the
fallback is the serialized synthetic error object — hence the
`json.JSONDecodeError` branch of `_parse_llm_response` that follows
the cleaning is unreachable. -/
theorem claim_C10 (response_text cleaned : String)
    (cands : List (Option String))
    (hbr : candsBraced cands = true) :
    clean_json_response "" cleaned cands = "\x7b\x7d" ∧
    jsonValid (clean_json_response response_text cleaned cands) = true ∧
    parse_llm_decode_error response_text cleaned cands = false := by
  have hv : jsonValid (clean_json_response response_text cleaned cands)
      = true := by
    by_cases hrt : response_text = ""
    · rw [clean_json_response, if_pos hrt]
      decide
    · rw [clean_json_response, if_neg hrt]
      cases h1 : tryCands cands with
      | some s =>
        simp only [h1]
        exact tryCands_valid cands hbr s h1
      | none =>
        simp only [h1]
        by_cases h2 : extract_balanced_json cleaned ≠ "" ∧
            jsonValid (extract_balanced_json cleaned) = true
        · rw [if_pos h2]
          exact h2.2
        · rw [if_neg h2]
          cases h3 : tryLines (splitOnNl cleaned) with
          | some s =>
            simp only [h3]
            exact tryLines_valid (splitOnNl cleaned) s h3
          | none =>
            simp only [h3]
            by_cases h4 : (pyStrip cleaned).data.head? = some '\x7b' ∧
                (pyStrip cleaned).data.getLast? = some '\x7d' ∧
                jsonValid cleaned = true
            · rw [if_pos h4]
              exact h4.2.2
            · rw [if_neg h4]
              decide
  refine ⟨by rw [clean_json_response, if_pos rfl], hv, ?_⟩
  rw [parse_llm_decode_error, hv]
  rfl

/-- Witness for the C10 theorem: a concrete non-empty response with
one brace-delimited regex candidate. -/
theorem claim_C10_witness :
    candsBraced [some "\x7b\"a\": 1\x7d", none] = true ∧
    (clean_json_response "" "x" [some "\x7b\"a\": 1\x7d", none] =
      "\x7b\x7d" ∧
    jsonValid (clean_json_response "text" "x"
      [some "\x7b\"a\": 1\x7d", none]) = true ∧
    parse_llm_decode_error "text" "x"
      [some "\x7b\"a\": 1\x7d", none] = false) :=
  ⟨by decide, claim_C10 "text" "x"
    [some "\x7b\"a\": 1\x7d", none] (by decide)⟩
